import Mathlib

/-!
Closure computation of `protoc-gen-go-tetragon/common`.

A shallow embedding of `GetEvents`, `GetFields`, `getFieldsForMessage`,
`__getFieldsForMessage` and `GetEnums` from
`cmd/protoc-gen-go-tetragon/common/common.go`, and the properties of the three
closures they compute.

Data model. The Go code works on the pointer graph built by `protogen`: a `*protogen.Message`
has `Fields`, each `*protogen.Field` may point to a `*protogen.Message`
(`field.Message`) or to a `*protogen.Enum` (`field.Enum`), and the graph may be
cyclic. Pointers are modelled as indices into a finite store: `Fin n` for the
`n` message descriptors in memory and `Fin k` for the `k` enum descriptors. Every
value of these types is a valid pointer, `Option` models `nil`, and pointer
equality is equality of indices.

Go maps used as sets (`map[string]struct{}`) are modelled as lists of keys:
only membership is ever observed. The three package-level caches are an explicit
state record threaded through the accessors.
-/

namespace Tetragon

/-! ## Descriptors -/

/-- The part of `protogen.Enum` the code reads: `enum.Desc.Name()`. -/
structure Enum where
  descName : String
deriving DecidableEq, Repr

/-- The part of `protogen.Field` the code reads: `field.GoIdent.GoName`,
`field.Message` and `field.Enum` (`none` is Go's `nil`). -/
structure Field (n k : Nat) where
  goName : String
  message : Option (Fin n)
  enum : Option (Fin k)
deriving DecidableEq, Repr

/-- The part of `protogen.Oneof` the code reads: `oneof.Desc.Name()` and
`oneof.Fields`. -/
structure Oneof (n k : Nat) where
  descName : String
  fields : List (Field n k)
deriving DecidableEq, Repr

/-- The part of `protogen.Message` the code reads: `msg.GoIdent.GoName`,
`msg.Desc.Name()`, `msg.Fields` and `msg.Oneofs`. -/
structure Message (n k : Nat) where
  goName : String
  descName : String
  fields : List (Field n k)
  oneofs : List (Oneof n k)
deriving DecidableEq, Repr

/-- The descriptors in memory: what each message pointer and each enum pointer
points to. -/
structure Heap (n k : Nat) where
  msg : Fin n → Message n k
  enum : Fin k → Enum

/-- The part of `protogen.File` the code reads: `f.Messages` and `f.Enums`, the
top-level declarations of the file in declaration order. -/
structure File (n k : Nat) where
  messages : List (Fin n)
  enums : List (Fin k)
deriving DecidableEq, Repr

/-- The package-level variables `eventsCache`, `fieldsCache` and `enumsCache`. -/
structure Caches (n k : Nat) where
  eventsCache : List (Fin n)
  fieldsCache : List (Fin n)
  enumsCache : List (Fin k)
deriving DecidableEq, Repr

/-- The caches at program start: all three slices are `nil`. -/
def Caches.empty (n k : Nat) : Caches n k := ⟨[], [], []⟩

/-- What an accessor returns: the error of `fmt.Errorf` (its message) or the
slice; on an error the Go code returns a `nil` slice. -/
inductive Result (α : Type) where
  | error : String → Result α
  | ok : List α → Result α
deriving DecidableEq, Repr

/-! ## The code -/

/-- Go's `strings.TrimPrefix(s, p)`: `s` without the leading `p` when `s`
starts with `p`, otherwise `s`. -/
def TrimPrefix (s p : String) : String :=
  if p.data.isPrefixOf s.data then ⟨s.data.drop p.data.length⟩ else s

/-- The state of one walk: the fields collected so far and the `seen` set. -/
abbrev Walk (n k : Nat) := List (Field n k) × List String

/-- The `for _, field := range msg.Fields` loop of `__getFieldsForMessage`,
with the recursive call `descend` as a parameter. It returns the collected
fields together with the final `seen` map (which Go mutates in place), or
`none` when a recursive call did not return. -/
def fieldsLoop {n k : Nat} (h : Heap n k)
    (descend : Fin n → List String → Option (Walk n k)) :
    List (Field n k) → List String → Option (Walk n k)
  | [], seen => some ([], seen)
  | field :: rest, seen =>
    match field.message with
    | none => fieldsLoop h descend rest seen
    | some r =>
      let fieldType := (h.msg r).goName
      if fieldType ∈ seen then fieldsLoop h descend rest seen
      else
        match descend r (fieldType :: seen) with
        | none => none
        | some (sub, seen1) =>
          match fieldsLoop h descend rest seen1 with
          | none => none
          | some (more, seen2) => some (field :: (sub ++ more), seen2)

/-- The recursion of `__getFieldsForMessage(msg, seen)`, bounded by a nesting
depth `fuel`: `none` means the depth did not suffice. -/
def __getFieldsForMessage {n k : Nat} (h : Heap n k) :
    Nat → Fin n → List String → Option (Walk n k)
  | 0, _, _ => none
  | fuel + 1, msg, seen =>
    fieldsLoop h (fun r s => __getFieldsForMessage h fuel r s) (h.msg msg).fields seen

/-- The function `getFieldsForMessage(msg)`: the walk from an empty `seen` map.
The nesting depth `n + 1` always suffices (`getFieldsForMessage_run`), so
the `none` branch is never taken. -/
def getFieldsForMessage {n k : Nat} (h : Heap n k) (msg : Fin n) : List (Field n k) :=
  match __getFieldsForMessage h (n + 1) msg [] with
  | some (fields, _) => fields
  | none => []

/-- The function `GetEvents(f)`. -/
def GetEvents {n k : Nat} (h : Heap n k) (f : File n k) (c : Caches n k) :
    Result (Fin n) × Caches n k :=
  if c.eventsCache.length = 0 then
    match f.messages.find? (fun msg => (h.msg msg).goName == "GetEventsResponse") with
    | none => (.error "Unable to find GetEventsResponse message", c)
    | some getEventsResponse =>
      match (h.msg getEventsResponse).oneofs.find? (fun oneof => oneof.descName == "event") with
      | none => (.error "Unable to find GetEventsResponse.event", c)
      | some eventOneof =>
        let validNames := eventOneof.fields.map
          (fun type_ => TrimPrefix type_.goName "GetEventsResponse_")
        let cache := c.eventsCache ++
          f.messages.filter (fun msg => decide ((h.msg msg).descName ∈ validNames))
        (.ok cache, { c with eventsCache := cache })
  else (.ok c.eventsCache, c)

/-- The Go type names `field.Message.GoIdent.GoName` of the message-typed fields
of a list of fields (fields with `field.Message == nil` are skipped). -/
def typeNames {n k : Nat} (h : Heap n k) (fields : List (Field n k)) : List String :=
  fields.filterMap (fun field =>
    match field.message with
    | none => none
    | some r => some (h.msg r).goName)

/-- The keys put into `validFields` by `GetFields`: the Go type names of the
messages referenced by the fields that `getFieldsForMessage` returns for each
event. -/
def validFields {n k : Nat} (h : Heap n k) (events : List (Fin n)) : List String :=
  events.flatMap (fun event => typeNames h (getFieldsForMessage h event))

/-- The function `GetFields(f)`. -/
def GetFields {n k : Nat} (h : Heap n k) (f : File n k) (c : Caches n k) :
    Result (Fin n) × Caches n k :=
  if c.fieldsCache.length = 0 then
    match GetEvents h f c with
    | (.error err, c1) => (.error err, c1)
    | (.ok events, c1) =>
      let cache := c1.fieldsCache ++
        f.messages.filter (fun msg => decide ((h.msg msg).descName ∈ validFields h events))
      (.ok cache, { c1 with fieldsCache := cache })
  else (.ok c.fieldsCache, c)

/-- The keys put into `validNames` by `GetEnums`: the declared names of the
enums referenced by the immediate fields of the given messages. -/
def validEnumNames {n k : Nat} (h : Heap n k) (eventsAndFields : List (Fin n)) : List String :=
  eventsAndFields.flatMap (fun msg =>
    (h.msg msg).fields.filterMap (fun field =>
      match field.enum with
      | none => none
      | some e => some (h.enum e).descName))

/-- The function `GetEnums(f)`. -/
def GetEnums {n k : Nat} (h : Heap n k) (f : File n k) (c : Caches n k) :
    Result (Fin k) × Caches n k :=
  if c.enumsCache.length = 0 then
    match GetEvents h f c with
    | (.error err, c1) => (.error err, c1)
    | (.ok events, c1) =>
      match GetFields h f c1 with
      | (.error err, c2) => (.error err, c2)
      | (.ok fields, c2) =>
        let eventsAndFields := events ++ fields
        let cache := c2.enumsCache ++
          f.enums.filter (fun enum => decide ((h.enum enum).descName ∈ validEnumNames h eventsAndFields))
        (.ok cache, { c2 with enumsCache := cache })
  else (.ok c.enumsCache, c)

/-! ## The anchors and the three closures, stated without the caches -/

/-- Message `m` is the entry message of `f`: the first message of `f.Messages`
whose Go name is `GetEventsResponse`. -/
def IsEntry {n k : Nat} (h : Heap n k) (f : File n k) (m : Fin n) : Prop :=
  ∃ before after, f.messages = before ++ m :: after ∧
    (h.msg m).goName = "GetEventsResponse" ∧
    ∀ x ∈ before, (h.msg x).goName ≠ "GetEventsResponse"

/-- The oneof `o` is the event union of message `m`: the first oneof of
`m.Oneofs` whose name is `event`. -/
def IsEventOneof {n k : Nat} (h : Heap n k) (m : Fin n) (o : Oneof n k) : Prop :=
  ∃ before after, (h.msg m).oneofs = before ++ o :: after ∧
    o.descName = "event" ∧ ∀ x ∈ before, x.descName ≠ "event"

/-- The messages of `f` whose declared name is one of `names`, in declaration
order. -/
def messagesNamed {n k : Nat} (h : Heap n k) (f : File n k) (names : List String) :
    List (Fin n) :=
  f.messages.filter (fun msg => decide ((h.msg msg).descName ∈ names))

/-- The enums of `f` whose declared name is one of `names`, in declaration
order. -/
def enumsNamed {n k : Nat} (h : Heap n k) (f : File n k) (names : List String) :
    List (Fin k) :=
  f.enums.filter (fun enum => decide ((h.enum enum).descName ∈ names))

/-- The bare type names of the variants of a oneof: the Go name of each variant
field without the leading `GetEventsResponse_`. -/
def variantNames {n k : Nat} (o : Oneof n k) : List String :=
  o.fields.map (fun type_ => TrimPrefix type_.goName "GetEventsResponse_")

/-! ## Reachability in the message graph -/

/-- Message `a` has a message-typed field whose type is `b`. -/
def Refs {n k : Nat} (h : Heap n k) (a b : Fin n) : Prop :=
  ∃ field ∈ (h.msg a).fields, field.message = some b

instance {n k : Nat} (h : Heap n k) (a b : Fin n) : Decidable (Refs h a b) := by
  unfold Refs
  infer_instance

/-- Message `b` is reachable from `a` by zero or more message-typed field hops. -/
def Reach {n k : Nat} (h : Heap n k) : Fin n → Fin n → Prop :=
  Relation.ReflTransGen (Refs h)

/-- Message `b` is reachable from `a` by one or more message-typed field hops. -/
def ReachPlus {n k : Nat} (h : Heap n k) : Fin n → Fin n → Prop :=
  Relation.TransGen (Refs h)

/-- Message `b` is reachable from the message type of one of the fields `start`
by zero or more message-typed field hops. -/
def ReachFrom {n k : Nat} (h : Heap n k) (start : List (Field n k)) (b : Fin n) : Prop :=
  ∃ field ∈ start, ∃ r, field.message = some r ∧ Reach h r b

/-- What holds of a walk over the fields `start` that began with the map `seen`
and returned `res`. -/
structure WalkPost {n k : Nat} (h : Heap n k) (start : List (Field n k))
    (seen : List String) (res : Walk n k) : Prop where
  mono : seen ⊆ res.2
  fresh : ∀ s ∈ res.2, s ∈ seen ∨ s ∈ typeNames h res.1
  direct : ∀ field ∈ start, ∀ r, field.message = some r → (h.msg r).goName ∈ res.2
  recorded : ∀ field ∈ res.1, ∃ r, field.message = some r ∧
    (h.msg r).goName ∉ seen ∧ (h.msg r).goName ∈ res.2 ∧ ReachFrom h start r ∧
    ∀ field1 ∈ (h.msg r).fields, ∀ r1, field1.message = some r1 → (h.msg r1).goName ∈ res.2
  nodup : (typeNames h res.1).Nodup

/-- The Go type names of the store that are not yet in the map `seen`: the
measure that bounds the nesting depth of the walk. -/
def unseen {n k : Nat} (h : Heap n k) (seen : List String) : Finset String :=
  (Finset.univ.image (fun i : Fin n => (h.msg i).goName)) \ seen.toFinset

/-! ## Example schemas -/

/-- A store given by the list of its messages and the list of its enums. -/
def Heap.ofLists {n k : Nat} (ms : List (Message n k)) (es : List Enum) : Heap n k :=
  ⟨fun i => ms.getD i.val ⟨"", "", [], []⟩, fun i => es.getD i.val ⟨""⟩⟩

/-- A message-typed field. -/
def Field.ofMessage {n k : Nat} (goName : String) (r : Fin n) : Field n k :=
  ⟨goName, some r, none⟩

/-- An enum-typed field. -/
def Field.ofEnum {n k : Nat} (goName : String) (e : Fin k) : Field n k :=
  ⟨goName, none, some e⟩

/-- A scalar field. -/
def Field.scalar {n k : Nat} (goName : String) : Field n k :=
  ⟨goName, none, none⟩

/-- The scenario of the specification: `GetEventsResponse` with the oneof
`event` over `Exec` and `Exit`, `Exec.process : Process`, `Process.binary :
string`, `Process.pod : Pod`, `Pod.status : PodStatus`. -/
def scenarioHeap : Heap 5 1 :=
  Heap.ofLists
    [ ⟨"GetEventsResponse", "GetEventsResponse",
        [Field.ofMessage "GetEventsResponse_Exec" 1, Field.ofMessage "GetEventsResponse_Exit" 2],
        [⟨"event", [Field.ofMessage "GetEventsResponse_Exec" 1,
                    Field.ofMessage "GetEventsResponse_Exit" 2]⟩]⟩,
      ⟨"Exec", "Exec", [Field.ofMessage "Exec_Process" 3], []⟩,
      ⟨"Exit", "Exit", [Field.scalar "Exit_Code"], []⟩,
      ⟨"Process", "Process", [Field.scalar "Process_Binary", Field.ofMessage "Process_Pod" 4], []⟩,
      ⟨"Pod", "Pod", [Field.ofEnum "Pod_Status" 0], []⟩ ]
    [ ⟨"PodStatus"⟩ ]

/-- The file of the scenario: all five messages and the enum are top-level. -/
def scenarioFile : File 5 1 := ⟨[0, 1, 2, 3, 4], [0]⟩

/-- A file whose event `Exec` has a field of the imported message type
`Timestamp`, which is not declared in the file. -/
def importHeap : Heap 3 0 :=
  Heap.ofLists
    [ ⟨"GetEventsResponse", "GetEventsResponse",
        [Field.ofMessage "GetEventsResponse_Exec" 1],
        [⟨"event", [Field.ofMessage "GetEventsResponse_Exec" 1]⟩]⟩,
      ⟨"Exec", "Exec", [Field.ofMessage "Exec_Time" 2], []⟩,
      ⟨"Timestamp", "Timestamp", [Field.scalar "Timestamp_Seconds"], []⟩ ]
    []

/-- The file of `importHeap`: it declares `GetEventsResponse` and `Exec`. -/
def importFile : File 3 0 := ⟨[0, 1], []⟩

/-- A file whose event `Exec` has a field `parent` of type `Exec`. -/
def selfHeap : Heap 2 0 :=
  Heap.ofLists
    [ ⟨"GetEventsResponse", "GetEventsResponse",
        [Field.ofMessage "GetEventsResponse_Exec" 1],
        [⟨"event", [Field.ofMessage "GetEventsResponse_Exec" 1]⟩]⟩,
      ⟨"Exec", "Exec", [Field.ofMessage "Exec_Parent" 1], []⟩ ]
    []

/-- The file of `selfHeap`: both messages are top-level. -/
def selfFile : File 2 0 := ⟨[0, 1], []⟩

/-- A file whose event `Exec` has a field of the imported enum type `Kind`,
which is not declared in the file. -/
def importEnumHeap : Heap 2 1 :=
  Heap.ofLists
    [ ⟨"GetEventsResponse", "GetEventsResponse",
        [Field.ofMessage "GetEventsResponse_Exec" 1],
        [⟨"event", [Field.ofMessage "GetEventsResponse_Exec" 1]⟩]⟩,
      ⟨"Exec", "Exec", [Field.ofEnum "Exec_Kind" 0], []⟩ ]
    [ ⟨"Kind"⟩ ]

/-- The file of `importEnumHeap`: it declares the two messages and no enum. -/
def importEnumFile : File 2 1 := ⟨[0, 1], []⟩

/-- Two events `Exec` and `Exit` that both have a field of type `Process`, and
`Process` has a field of type `Process`: a diamond and a cycle. -/
def diamondHeap : Heap 4 0 :=
  Heap.ofLists
    [ ⟨"GetEventsResponse", "GetEventsResponse",
        [Field.ofMessage "GetEventsResponse_Exec" 1, Field.ofMessage "GetEventsResponse_Exit" 2],
        [⟨"event", [Field.ofMessage "GetEventsResponse_Exec" 1,
                    Field.ofMessage "GetEventsResponse_Exit" 2]⟩]⟩,
      ⟨"Exec", "Exec", [Field.ofMessage "Exec_Process" 3], []⟩,
      ⟨"Exit", "Exit", [Field.ofMessage "Exit_Process" 3], []⟩,
      ⟨"Process", "Process", [Field.ofMessage "Process_Parent" 3], []⟩ ]
    []

/-- The file of `diamondHeap`: all four messages are top-level. -/
def diamondFile : File 4 0 := ⟨[0, 1, 2, 3], []⟩

/-- A file without a message named `GetEventsResponse`. -/
def noEntryHeap : Heap 1 0 :=
  Heap.ofLists [ ⟨"Exec", "Exec", [Field.scalar "Exec_Pid"], []⟩ ] []

/-- The file of `noEntryHeap`. -/
def noEntryFile : File 1 0 := ⟨[0], []⟩

/-- A file whose `GetEventsResponse` has a oneof, but none named `event`. -/
def noUnionHeap : Heap 2 0 :=
  Heap.ofLists
    [ ⟨"GetEventsResponse", "GetEventsResponse",
        [Field.ofMessage "GetEventsResponse_Exec" 1],
        [⟨"payload", [Field.ofMessage "GetEventsResponse_Exec" 1]⟩]⟩,
      ⟨"Exec", "Exec", [], []⟩ ]
    []

/-- The file of `noUnionHeap`. -/
def noUnionFile : File 2 0 := ⟨[0, 1], []⟩

/-- A file whose event union has the variants `Exec`, declared in the file, and
`Test`, whose payload type is not declared in the file. -/
def droppedHeap : Heap 3 0 :=
  Heap.ofLists
    [ ⟨"GetEventsResponse", "GetEventsResponse",
        [Field.ofMessage "GetEventsResponse_Exec" 1, Field.ofMessage "GetEventsResponse_Test" 2],
        [⟨"event", [Field.ofMessage "GetEventsResponse_Exec" 1,
                    Field.ofMessage "GetEventsResponse_Test" 2]⟩]⟩,
      ⟨"Exec", "Exec", [], []⟩,
      ⟨"Test", "Test", [], []⟩ ]
    []

/-- The file of `droppedHeap`: it declares `GetEventsResponse` and `Exec`. -/
def droppedFile : File 3 0 := ⟨[0, 1], []⟩

/-- A file that declares a message `Process` of its own, which no field
references, while its event `Exec` has a field of the message type `Process`
imported from another package. -/
def shadowHeap : Heap 4 0 :=
  Heap.ofLists
    [ ⟨"GetEventsResponse", "GetEventsResponse",
        [Field.ofMessage "GetEventsResponse_Exec" 1],
        [⟨"event", [Field.ofMessage "GetEventsResponse_Exec" 1]⟩]⟩,
      ⟨"Exec", "Exec", [Field.ofMessage "Exec_Process" 3], []⟩,
      ⟨"Process", "Process", [Field.scalar "Process_Pid"], []⟩,
      ⟨"Process", "Process", [Field.scalar "Process_Binary"], []⟩ ]
    []

/-- The file of `shadowHeap`: it declares `GetEventsResponse`, `Exec` and its
own `Process`; the imported `Process` is message 3. -/
def shadowFile : File 4 0 := ⟨[0, 1, 2], []⟩

/-- A file that declares a top-level enum `Type`, which no field references,
while its event `Exec` has a field whose type is the enum `Type` nested in
`Exec`. -/
def shadowEnumHeap : Heap 2 2 :=
  Heap.ofLists
    [ ⟨"GetEventsResponse", "GetEventsResponse",
        [Field.ofMessage "GetEventsResponse_Exec" 1],
        [⟨"event", [Field.ofMessage "GetEventsResponse_Exec" 1]⟩]⟩,
      ⟨"Exec", "Exec", [Field.ofEnum "Exec_Type" 1], []⟩ ]
    [ ⟨"Type"⟩, ⟨"Type"⟩ ]

/-- The file of `shadowEnumHeap`: its only top-level enum is enum 0; the enum
nested in `Exec` is enum 1. -/
def shadowEnumFile : File 2 2 := ⟨[0, 1], [0]⟩

/-- A file whose `GetEventsResponse` has an event union without variants, and a
second file, in the same store, with its own `GetEventsResponse` and the event
`Exec`. -/
def memoHeap : Heap 3 0 :=
  Heap.ofLists
    [ ⟨"GetEventsResponse", "GetEventsResponse", [], [⟨"event", []⟩]⟩,
      ⟨"GetEventsResponse", "GetEventsResponse",
        [Field.ofMessage "GetEventsResponse_Exec" 2],
        [⟨"event", [Field.ofMessage "GetEventsResponse_Exec" 2]⟩]⟩,
      ⟨"Exec", "Exec", [], []⟩ ]
    []

/-- The first file of `memoHeap`: its event union has no variants. -/
def memoFile : File 3 0 := ⟨[0], []⟩

/-- The second file of `memoHeap`: it declares the event `Exec`. -/
def memoOtherFile : File 3 0 := ⟨[1, 2], []⟩

/-- The event `A` has a field of type `B`, and `B` has a field of type `A`. -/
def cycleHeap : Heap 3 0 :=
  Heap.ofLists
    [ ⟨"GetEventsResponse", "GetEventsResponse",
        [Field.ofMessage "GetEventsResponse_A" 1],
        [⟨"event", [Field.ofMessage "GetEventsResponse_A" 1]⟩]⟩,
      ⟨"A", "A", [Field.ofMessage "A_B" 2], []⟩,
      ⟨"B", "B", [Field.ofMessage "B_A" 1], []⟩ ]
    []

/-- The file of `cycleHeap`: all three messages are top-level. -/
def cycleFile : File 3 0 := ⟨[0, 1, 2], []⟩

/-- A file whose event union has the variant `exec` of payload type
`ProcessExec`, and which also declares a message `Exec`. -/
def variantHeap : Heap 3 0 :=
  Heap.ofLists
    [ ⟨"GetEventsResponse", "GetEventsResponse",
        [Field.ofMessage "GetEventsResponse_Exec" 1],
        [⟨"event", [Field.ofMessage "GetEventsResponse_Exec" 1]⟩]⟩,
      ⟨"ProcessExec", "ProcessExec", [], []⟩,
      ⟨"Exec", "Exec", [], []⟩ ]
    []

/-- The file of `variantHeap`: all three messages are top-level. -/
def variantFile : File 3 0 := ⟨[0, 1, 2], []⟩

/-- The scenario of the specification with the variants of the event union
listed in the other order: `Exit` before `Exec`. -/
def swappedHeap : Heap 5 1 :=
  Heap.ofLists
    [ ⟨"GetEventsResponse", "GetEventsResponse",
        [Field.ofMessage "GetEventsResponse_Exec" 1, Field.ofMessage "GetEventsResponse_Exit" 2],
        [⟨"event", [Field.ofMessage "GetEventsResponse_Exit" 2,
                    Field.ofMessage "GetEventsResponse_Exec" 1]⟩]⟩,
      ⟨"Exec", "Exec", [Field.ofMessage "Exec_Process" 3], []⟩,
      ⟨"Exit", "Exit", [Field.scalar "Exit_Code"], []⟩,
      ⟨"Process", "Process", [Field.scalar "Process_Binary", Field.ofMessage "Process_Pod" 4], []⟩,
      ⟨"Pod", "Pod", [Field.ofEnum "Pod_Status" 0], []⟩ ]
    [ ⟨"PodStatus"⟩ ]

/-- A file that declares `Process` and `Pod`; its event `Exec` has a field of
the declared type `Process` and then a field of the type `Process` imported
from another package, which has a field of the imported type `Pod`. Messages 3
and 5 are the imported ones. -/
def collideHeap : Heap 6 0 :=
  Heap.ofLists
    [ ⟨"GetEventsResponse", "GetEventsResponse",
        [Field.ofMessage "GetEventsResponse_Exec" 1],
        [⟨"event", [Field.ofMessage "GetEventsResponse_Exec" 1]⟩]⟩,
      ⟨"Exec", "Exec", [Field.ofMessage "Exec_Process" 2, Field.ofMessage "Exec_Peer" 3], []⟩,
      ⟨"Process", "Process", [Field.scalar "Process_Pid"], []⟩,
      ⟨"Process", "Process", [Field.ofMessage "Process_Pod" 5], []⟩,
      ⟨"Pod", "Pod", [Field.scalar "Pod_Name"], []⟩,
      ⟨"Pod", "Pod", [Field.scalar "Pod_Name"], []⟩ ]
    []

/-- The file of `collideHeap`: it declares `GetEventsResponse`, `Exec`,
`Process` (message 2) and `Pod` (message 4). -/
def collideFile : File 6 0 := ⟨[0, 1, 2, 4], []⟩

/-- A file that declares `Process` and `Pod`; its event `Exec` has a field of
the declared type `Process`, and its event `Exit` has a field of the type
`Process` imported from another package, which has a field of the imported
type `Pod`. Messages 4 and 6 are the imported ones. -/
def sharedHeap : Heap 7 0 :=
  Heap.ofLists
    [ ⟨"GetEventsResponse", "GetEventsResponse",
        [Field.ofMessage "GetEventsResponse_Exec" 1, Field.ofMessage "GetEventsResponse_Exit" 2],
        [⟨"event", [Field.ofMessage "GetEventsResponse_Exec" 1,
                    Field.ofMessage "GetEventsResponse_Exit" 2]⟩]⟩,
      ⟨"Exec", "Exec", [Field.ofMessage "Exec_Process" 3], []⟩,
      ⟨"Exit", "Exit", [Field.ofMessage "Exit_Process" 4], []⟩,
      ⟨"Process", "Process", [Field.scalar "Process_Pid"], []⟩,
      ⟨"Process", "Process", [Field.ofMessage "Process_Pod" 6], []⟩,
      ⟨"Pod", "Pod", [Field.scalar "Pod_Name"], []⟩,
      ⟨"Pod", "Pod", [Field.scalar "Pod_Name"], []⟩ ]
    []

/-- The file of `sharedHeap`: it declares `GetEventsResponse`, `Exec`, `Exit`,
`Process` (message 3) and `Pod` (message 5). -/
def sharedFile : File 7 0 := ⟨[0, 1, 2, 3, 5], []⟩

/-- A message `Exec` with two fields, `process` and `parent`, of the same type
`Process`. -/
def twinHeap : Heap 2 0 :=
  Heap.ofLists
    [ ⟨"Exec", "Exec", [Field.ofMessage "Exec_Process" 1, Field.ofMessage "Exec_Parent" 1], []⟩,
      ⟨"Process", "Process", [Field.scalar "Process_Pid"], []⟩ ]
    []

/-- Two events `Exec` and `Exit` that both have a field of the imported
message type `Timestamp`, which is not declared in the file. -/
def importDiamondHeap : Heap 4 0 :=
  Heap.ofLists
    [ ⟨"GetEventsResponse", "GetEventsResponse",
        [Field.ofMessage "GetEventsResponse_Exec" 1, Field.ofMessage "GetEventsResponse_Exit" 2],
        [⟨"event", [Field.ofMessage "GetEventsResponse_Exec" 1,
                    Field.ofMessage "GetEventsResponse_Exit" 2]⟩]⟩,
      ⟨"Exec", "Exec", [Field.ofMessage "Exec_Time" 3], []⟩,
      ⟨"Exit", "Exit", [Field.ofMessage "Exit_Time" 3], []⟩,
      ⟨"Timestamp", "Timestamp", [Field.scalar "Timestamp_Seconds"], []⟩ ]
    []

/-- The file of `importDiamondHeap`: it declares `GetEventsResponse`, `Exec`
and `Exit`. -/
def importDiamondFile : File 4 0 := ⟨[0, 1, 2], []⟩

/-! ## Sequences of calls -/

/-- The three accessors. -/
inductive Accessor where
  | events
  | fields
  | enums
deriving DecidableEq, Repr

/-- What a call of an accessor returns: a result over messages (`GetEvents`,
`GetFields`) or over enums (`GetEnums`). -/
inductive Answer (n k : Nat) where
  | messages : Result (Fin n) → Answer n k
  | enums : Result (Fin k) → Answer n k
deriving DecidableEq, Repr

/-- One call of accessor `a` on file `f` in the cache state `c`: what it
returns and the cache state it leaves. -/
def call {n k : Nat} (h : Heap n k) (a : Accessor) (f : File n k) (c : Caches n k) :
    Answer n k × Caches n k :=
  match a with
  | .events => (.messages (GetEvents h f c).1, (GetEvents h f c).2)
  | .fields => (.messages (GetFields h f c).1, (GetFields h f c).2)
  | .enums => (.enums (GetEnums h f c).1, (GetEnums h f c).2)

/-- The cache state after a sequence of calls, each of an accessor on a file. -/
def runCalls {n k : Nat} (h : Heap n k) :
    List (Accessor × File n k) → Caches n k → Caches n k
  | [], c => c
  | (a, f) :: rest, c => runCalls h rest (call h a f c).2

/-- What the calls of a sequence return, in order, each with its accessor. -/
def answers {n k : Nat} (h : Heap n k) :
    List (Accessor × File n k) → Caches n k → List (Accessor × Answer n k)
  | [], _ => []
  | (a, f) :: rest, c => (a, (call h a f c).1) :: answers h rest (call h a f c).2

/-- The cache state `c` with the list of result `r` stored in `eventsCache`; an
error stores nothing. -/
def Caches.withEvents {n k : Nat} (c : Caches n k) : Result (Fin n) → Caches n k
  | .ok evs => { c with eventsCache := evs }
  | .error _ => c

/-- The cache state `c` with the list of result `r` stored in `fieldsCache`; an
error stores nothing. -/
def Caches.withFields {n k : Nat} (c : Caches n k) : Result (Fin n) → Caches n k
  | .ok flds => { c with fieldsCache := flds }
  | .error _ => c

/-- The cache state `c` with the list of result `r` stored in `enumsCache`; an
error stores nothing. -/
def Caches.withEnums {n k : Nat} (c : Caches n k) : Result (Fin k) → Caches n k
  | .ok ens => { c with enumsCache := ens }
  | .error _ => c

/-- The cache states that calls on the one file `f` can reach from empty
caches: each cache is empty or holds what its accessor returns on `f` from empty
caches. -/
def Settled {n k : Nat} (h : Heap n k) (f : File n k) (c : Caches n k) : Prop :=
  (c.eventsCache = [] ∨ (GetEvents h f (Caches.empty n k)).1 = .ok c.eventsCache) ∧
  (c.fieldsCache = [] ∨ (GetFields h f (Caches.empty n k)).1 = .ok c.fieldsCache) ∧
  (c.enumsCache = [] ∨ (GetEnums h f (Caches.empty n k)).1 = .ok c.enumsCache)

/-! ## The variant with one shared `seen` map -/

/-- The variant of the walk phase of `GetFields` that the specification asks
about: instead of `getFieldsForMessage(event)`, which starts every event root
with a fresh `seen` map, it calls `__getFieldsForMessage(event, seen)` with one
`seen` map threaded through all event roots. It returns the fields of all roots
and the final map. -/
def sharedWalk {n k : Nat} (h : Heap n k) : List (Fin n) → List String → Walk n k
  | [], seen => ([], seen)
  | event :: rest, seen =>
    match __getFieldsForMessage h (n + 1) event seen with
    | some (fields, seen1) =>
      ((fields ++ (sharedWalk h rest seen1).1), (sharedWalk h rest seen1).2)
    | none => ([], seen)

/-- The keys that the shared-map variant puts into `validFields`. -/
def validFieldsShared {n k : Nat} (h : Heap n k) (events : List (Fin n)) : List String :=
  typeNames h (sharedWalk h events []).1

/-- What holds of the shared `seen` map between two roots: every name in it is
the Go type name of a message that is reachable from an event and whose own
message-typed fields have their type names in the map. -/
def SharedInv {n k : Nat} (h : Heap n k) (evs : List (Fin n)) (seen : List String) : Prop :=
  ∀ s ∈ seen, ∃ x, (h.msg x).goName = s ∧ (∃ e ∈ evs, ReachPlus h e x) ∧
    ∀ field ∈ (h.msg x).fields, ∀ r, field.message = some r → (h.msg r).goName ∈ seen

/-! ## The walk -/

section walk

variable {n k : Nat} (h : Heap n k)

theorem mem_typeNames {fields : List (Field n k)} {s : String} :
    s ∈ typeNames h fields ↔ ∃ field ∈ fields, ∃ r, field.message = some r ∧ (h.msg r).goName = s := by
  unfold typeNames
  rw [List.mem_filterMap]
  constructor
  · rintro ⟨field, hf, hs⟩
    refine ⟨field, hf, ?_⟩
    cases hm : field.message with
    | none => rw [hm] at hs; cases hs
    | some r => rw [hm] at hs; exact ⟨r, rfl, Option.some.inj hs⟩
  · rintro ⟨field, hf, r, hm, hs⟩
    exact ⟨field, hf, by rw [hm]; exact congrArg some hs⟩

theorem typeNames_cons_some {field : Field n k} {r : Fin n} (hm : field.message = some r)
    (rest : List (Field n k)) :
    typeNames h (field :: rest) = (h.msg r).goName :: typeNames h rest := by
  unfold typeNames
  rw [List.filterMap_cons, hm]

theorem typeNames_append (a b : List (Field n k)) :
    typeNames h (a ++ b) = typeNames h a ++ typeNames h b := by
  unfold typeNames
  exact List.filterMap_append _ _ _

theorem fieldsLoop_cons_none {descend : Fin n → List String → Option (Walk n k)}
    {field : Field n k} (hm : field.message = none) (rest : List (Field n k))
    (seen : List String) :
    fieldsLoop h descend (field :: rest) seen = fieldsLoop h descend rest seen := by
  rw [fieldsLoop, hm]

theorem fieldsLoop_cons_seen {descend : Fin n → List String → Option (Walk n k)}
    {field : Field n k} {r : Fin n} (hm : field.message = some r) (rest : List (Field n k))
    {seen : List String} (hs : (h.msg r).goName ∈ seen) :
    fieldsLoop h descend (field :: rest) seen = fieldsLoop h descend rest seen := by
  rw [fieldsLoop, hm]
  simp only [hs, if_true]

theorem fieldsLoop_cons_new {descend : Fin n → List String → Option (Walk n k)}
    {field : Field n k} {r : Fin n} (hm : field.message = some r) (rest : List (Field n k))
    {seen : List String} (hs : (h.msg r).goName ∉ seen) (res : Walk n k) :
    fieldsLoop h descend (field :: rest) seen = some res ↔
      ∃ sub seen1 more seen2, descend r ((h.msg r).goName :: seen) = some (sub, seen1) ∧
        fieldsLoop h descend rest seen1 = some (more, seen2) ∧
        res = (field :: (sub ++ more), seen2) := by
  rw [fieldsLoop, hm]
  simp only [hs, if_false]
  cases hd : descend r ((h.msg r).goName :: seen) with
  | none => simp
  | some p =>
    obtain ⟨sub, seen1⟩ := p
    cases hl : fieldsLoop h descend rest seen1 with
    | none => simp [hl]
    | some q =>
      obtain ⟨more, seen2⟩ := q
      dsimp only
      rw [hl]
      dsimp only
      constructor
      · intro e
        exact ⟨sub, seen1, more, seen2, rfl, hl, (Option.some.inj e).symm⟩
      · rintro ⟨sub1, seen3, more1, seen4, e1, e2, e⟩
        obtain ⟨rfl, rfl⟩ := Prod.mk.inj (Option.some.inj e1)
        rw [hl] at e2
        obtain ⟨rfl, rfl⟩ := Prod.mk.inj (Option.some.inj e2)
        rw [e]

theorem reachFrom_tail {start : List (Field n k)} {b : Fin n} (field : Field n k)
    (hb : ReachFrom h start b) : ReachFrom h (field :: start) b := by
  obtain ⟨f0, hf0, r, hm, hr⟩ := hb
  exact ⟨f0, List.mem_cons_of_mem _ hf0, r, hm, hr⟩

theorem reachFrom_through {field : Field n k} {r b : Fin n} (rest : List (Field n k))
    (hm : field.message = some r) (hb : ReachFrom h (h.msg r).fields b) :
    ReachFrom h (field :: rest) b := by
  obtain ⟨f0, hf0, r0, hm0, hr0⟩ := hb
  exact ⟨field, List.mem_cons_self _ _, r, hm,
    Relation.ReflTransGen.head ⟨f0, hf0, hm0⟩ hr0⟩

/-- The loop establishes the walk's postcondition when the recursive call does. -/
theorem fieldsLoop_post {descend : Fin n → List String → Option (Walk n k)}
    (hd : ∀ r seen res, descend r seen = some res → WalkPost h (h.msg r).fields seen res) :
    ∀ (start : List (Field n k)) (seen : List String) (res : Walk n k),
      fieldsLoop h descend start seen = some res → WalkPost h start seen res := by
  intro start
  induction start with
  | nil =>
    intro seen res hres
    rw [fieldsLoop] at hres
    obtain rfl := Option.some.inj hres
    exact
      { mono := fun _ hx => hx
        fresh := fun _ hx => Or.inl hx
        direct := fun _ hf => absurd hf (List.not_mem_nil _)
        recorded := fun _ hf => absurd hf (List.not_mem_nil _)
        nodup := List.nodup_nil }
  | cons field rest ih =>
    intro seen res hres
    cases hm : field.message with
    | none =>
      rw [fieldsLoop_cons_none h hm] at hres
      have p := ih seen res hres
      refine
        { mono := p.mono
          fresh := p.fresh
          direct := ?_
          recorded := ?_
          nodup := p.nodup }
      · intro f0 hf0 r hr
        rcases List.mem_cons.mp hf0 with rfl | hf0
        · rw [hm] at hr; cases hr
        · exact p.direct f0 hf0 r hr
      · intro f0 hf0
        obtain ⟨r, hr, h1, h2, h3, h4⟩ := p.recorded f0 hf0
        exact ⟨r, hr, h1, h2, reachFrom_tail h field h3, h4⟩
    | some r =>
      by_cases hs : (h.msg r).goName ∈ seen
      · rw [fieldsLoop_cons_seen h hm rest hs] at hres
        have p := ih seen res hres
        refine
          { mono := p.mono
            fresh := p.fresh
            direct := ?_
            recorded := ?_
            nodup := p.nodup }
        · intro f0 hf0 r0 hr
          rcases List.mem_cons.mp hf0 with rfl | hf0
          · rw [hm] at hr
            obtain rfl := Option.some.inj hr
            exact p.mono hs
          · exact p.direct f0 hf0 r0 hr
        · intro f0 hf0
          obtain ⟨r0, hr, h1, h2, h3, h4⟩ := p.recorded f0 hf0
          exact ⟨r0, hr, h1, h2, reachFrom_tail h field h3, h4⟩
      · obtain ⟨sub, seen1, more, seen2, e1, e2, rfl⟩ :=
          (fieldsLoop_cons_new h hm rest hs res).mp hres
        have p := hd r _ _ e1
        have q := ih seen1 _ e2
        have m1 : (h.msg r).goName :: seen ⊆ seen1 := p.mono
        have m2 : seen1 ⊆ seen2 := q.mono
        have hsub : ∀ s ∈ typeNames h sub, s ∈ seen1 ∧ s ∉ (h.msg r).goName :: seen := by
          intro s hs0
          obtain ⟨f0, hf0, r0, hr0, rfl⟩ := (mem_typeNames h).mp hs0
          obtain ⟨r1, hr1, h1, h2, _, _⟩ := p.recorded f0 hf0
          rw [hr0] at hr1
          obtain rfl := Option.some.inj hr1
          exact ⟨h2, h1⟩
        have hmore : ∀ s ∈ typeNames h more, s ∉ seen1 := by
          intro s hs0
          obtain ⟨f0, hf0, r0, hr0, rfl⟩ := (mem_typeNames h).mp hs0
          obtain ⟨r1, hr1, h1, _, _, _⟩ := q.recorded f0 hf0
          rw [hr0] at hr1
          obtain rfl := Option.some.inj hr1
          exact h1
        refine
          { mono := ?_
            fresh := ?_
            direct := ?_
            recorded := ?_
            nodup := ?_ }
        · intro s hs0
          exact m2 (m1 (List.mem_cons_of_mem _ hs0))
        · intro s hs0
          show s ∈ seen ∨ s ∈ typeNames h (field :: (sub ++ more))
          rw [typeNames_cons_some h hm, typeNames_append]
          rcases q.fresh s hs0 with h1 | h1
          · rcases p.fresh s h1 with h2 | h2
            · rcases List.mem_cons.mp h2 with rfl | h3
              · exact Or.inr (List.mem_cons_self _ _)
              · exact Or.inl h3
            · exact Or.inr (List.mem_cons_of_mem _ (List.mem_append_left _ h2))
          · exact Or.inr (List.mem_cons_of_mem _ (List.mem_append_right _ h1))
        · intro f0 hf0 r0 hr
          rcases List.mem_cons.mp hf0 with rfl | hf0
          · rw [hm] at hr
            obtain rfl := Option.some.inj hr
            exact m2 (m1 (List.mem_cons_self _ _))
          · exact q.direct f0 hf0 r0 hr
        · intro f0 hf0
          rcases List.mem_cons.mp hf0 with rfl | hf0
          · refine ⟨r, hm, hs, m2 (m1 (List.mem_cons_self _ _)),
              ⟨f0, List.mem_cons_self _ _, r, hm, Relation.ReflTransGen.refl⟩, ?_⟩
            intro f1 hf1 r1 hr1
            exact m2 (p.direct f1 hf1 r1 hr1)
          · rcases List.mem_append.mp hf0 with hf0 | hf0
            · obtain ⟨r0, hr, h1, h2, h3, h4⟩ := p.recorded f0 hf0
              refine ⟨r0, hr, fun hx => h1 (List.mem_cons_of_mem _ hx), m2 h2,
                reachFrom_through h rest hm h3, ?_⟩
              intro f1 hf1 r1 hr1
              exact m2 (h4 f1 hf1 r1 hr1)
            · obtain ⟨r0, hr, h1, h2, h3, h4⟩ := q.recorded f0 hf0
              exact ⟨r0, hr, fun hx => h1 (m1 (List.mem_cons_of_mem _ hx)), h2,
                reachFrom_tail h field h3, h4⟩
        · show (typeNames h (field :: (sub ++ more))).Nodup
          rw [typeNames_cons_some h hm, typeNames_append]
          refine List.nodup_cons.mpr ⟨?_, List.Nodup.append p.nodup q.nodup ?_⟩
          · intro hx
            rcases List.mem_append.mp hx with hx | hx
            · exact (hsub _ hx).2 (List.mem_cons_self _ _)
            · exact hmore _ hx (m1 (List.mem_cons_self _ _))
          · intro s hs1 hs2
            exact hmore s hs2 (hsub s hs1).1

/-- Every walk that returns satisfies the postcondition. -/
theorem getFieldsForMessage_post :
    ∀ (fuel : Nat) (msg : Fin n) (seen : List String) (res : Walk n k),
      __getFieldsForMessage h fuel msg seen = some res →
        WalkPost h (h.msg msg).fields seen res := by
  intro fuel
  induction fuel with
  | zero =>
    intro msg seen res hres
    rw [__getFieldsForMessage] at hres
    cases hres
  | succ fuel ih =>
    intro msg seen res hres
    rw [__getFieldsForMessage] at hres
    exact fieldsLoop_post h (fun r s res0 h0 => ih r s res0 h0) _ _ _ hres

theorem unseen_mono {s t : List String} (hst : s ⊆ t) : unseen h t ⊆ unseen h s := by
  intro x hx
  rw [unseen, Finset.mem_sdiff] at hx ⊢
  exact ⟨hx.1, fun hxs => hx.2 (List.mem_toFinset.mpr (hst (List.mem_toFinset.mp hxs)))⟩

theorem unseen_cons_lt {seen : List String} (r : Fin n) (hs : (h.msg r).goName ∉ seen) :
    (unseen h ((h.msg r).goName :: seen)).card < (unseen h seen).card := by
  apply Finset.card_lt_card
  refine Finset.ssubset_iff_subset_ne.mpr
    ⟨unseen_mono h (List.subset_cons_self _ _), fun heq => ?_⟩
  have h1 : (h.msg r).goName ∈ unseen h seen := by
    rw [unseen, Finset.mem_sdiff]
    exact ⟨Finset.mem_image.mpr ⟨r, Finset.mem_univ _, rfl⟩,
      fun hx => hs (List.mem_toFinset.mp hx)⟩
  rw [← heq, unseen, Finset.mem_sdiff] at h1
  exact h1.2 (List.mem_toFinset.mpr (List.mem_cons_self _ _))

theorem unseen_card_le (seen : List String) : (unseen h seen).card ≤ n := by
  calc (unseen h seen).card
      ≤ (Finset.univ.image (fun i : Fin n => (h.msg i).goName)).card :=
        Finset.card_le_card Finset.sdiff_subset
    _ ≤ (Finset.univ : Finset (Fin n)).card := Finset.card_image_le
    _ = n := Finset.card_fin n

/-- The loop returns when the recursive call returns on every map with fewer
unseen names than `d` and the loop starts with at most `d` unseen names. -/
theorem fieldsLoop_returns {descend : Fin n → List String → Option (Walk n k)} (d : Nat)
    (hd : ∀ r seen, (unseen h seen).card < d → ∃ res, descend r seen = some res)
    (hp : ∀ r seen res, descend r seen = some res → seen ⊆ res.2) :
    ∀ (start : List (Field n k)) (seen : List String), (unseen h seen).card ≤ d →
      ∃ res, fieldsLoop h descend start seen = some res := by
  intro start
  induction start with
  | nil =>
    intro seen _
    exact ⟨([], seen), by rw [fieldsLoop]⟩
  | cons field rest ih =>
    intro seen hc
    cases hm : field.message with
    | none =>
      rw [fieldsLoop_cons_none h hm]
      exact ih seen hc
    | some r =>
      by_cases hs : (h.msg r).goName ∈ seen
      · rw [fieldsLoop_cons_seen h hm rest hs]
        exact ih seen hc
      · obtain ⟨⟨sub, seen1⟩, e1⟩ := hd r ((h.msg r).goName :: seen)
          (lt_of_lt_of_le (unseen_cons_lt h r hs) hc)
        have m1 : seen ⊆ seen1 := fun x hx => hp r _ _ e1 (List.mem_cons_of_mem _ hx)
        obtain ⟨⟨more, seen2⟩, e2⟩ := ih seen1
          (le_trans (Finset.card_le_card (unseen_mono h m1)) hc)
        exact ⟨_, (fieldsLoop_cons_new h hm rest hs _).mpr
          ⟨sub, seen1, more, seen2, e1, e2, rfl⟩⟩

/-- The walk returns whenever the depth bound exceeds the number of Go type
names not yet seen. -/
theorem getFieldsForMessage_fuel :
    ∀ (fuel : Nat) (msg : Fin n) (seen : List String), (unseen h seen).card < fuel →
      ∃ res, __getFieldsForMessage h fuel msg seen = some res := by
  intro fuel
  induction fuel with
  | zero => intro msg seen hc; exact absurd hc (Nat.not_lt_zero _)
  | succ fuel ih =>
    intro msg seen hc
    rw [__getFieldsForMessage]
    exact fieldsLoop_returns h fuel (fun r s hs => ih r s hs)
      (fun r s res hres => (getFieldsForMessage_post h fuel r s res hres).mono)
      _ _ (Nat.le_of_lt_succ hc)

/-- The walk of `getFieldsForMessage` returns, with the fields that
`getFieldsForMessage` gives. -/
theorem getFieldsForMessage_run (msg : Fin n) :
    ∃ seen, __getFieldsForMessage h (n + 1) msg [] = some (getFieldsForMessage h msg, seen) := by
  obtain ⟨⟨fields, seen⟩, e⟩ := getFieldsForMessage_fuel h (n + 1) msg []
    (Nat.lt_succ_of_le (unseen_card_le h []))
  refine ⟨seen, ?_⟩
  rw [getFieldsForMessage, e]

/-- The postcondition of the walk from a root. -/
theorem getFieldsForMessage_walk (msg : Fin n) :
    ∃ seen, WalkPost h (h.msg msg).fields [] (getFieldsForMessage h msg, seen) := by
  obtain ⟨seen, e⟩ := getFieldsForMessage_run h msg
  exact ⟨seen, getFieldsForMessage_post h _ _ _ _ e⟩

end walk

/-! ## The accessors on empty caches -/

section accessors

variable {n k : Nat} (h : Heap n k) (f : File n k)

theorem isEntry_iff_find (m : Fin n) :
    IsEntry h f m ↔
      f.messages.find? (fun msg => (h.msg msg).goName == "GetEventsResponse") = some m := by
  rw [List.find?_eq_some]
  constructor
  · rintro ⟨before, after, e, hm, hb⟩
    exact ⟨by simpa using hm, before, after, e, fun a ha => by simpa using hb a ha⟩
  · rintro ⟨hm, before, after, e, hb⟩
    exact ⟨before, after, e, by simpa using hm, fun a ha => by simpa using hb a ha⟩

theorem isEventOneof_iff_find (m : Fin n) (o : Oneof n k) :
    IsEventOneof h m o ↔
      (h.msg m).oneofs.find? (fun oneof => oneof.descName == "event") = some o := by
  rw [List.find?_eq_some]
  constructor
  · rintro ⟨before, after, e, hm, hb⟩
    exact ⟨by simpa using hm, before, after, e, fun a ha => by simpa using hb a ha⟩
  · rintro ⟨hm, before, after, e, hb⟩
    exact ⟨before, after, e, by simpa using hm, fun a ha => by simpa using hb a ha⟩

theorem isEntry_mem {m : Fin n} (hm : IsEntry h f m) : m ∈ f.messages := by
  obtain ⟨before, after, e, _, _⟩ := hm
  rw [e]
  exact List.mem_append_right _ (List.mem_cons_self _ _)

theorem isEntry_unique {m m1 : Fin n} (hm : IsEntry h f m) (hm1 : IsEntry h f m1) :
    m = m1 := by
  rw [isEntry_iff_find] at hm hm1
  rw [hm] at hm1
  exact Option.some.inj hm1

theorem isEventOneof_unique {m : Fin n} {o o1 : Oneof n k} (ho : IsEventOneof h m o)
    (ho1 : IsEventOneof h m o1) : o = o1 := by
  rw [isEventOneof_iff_find] at ho ho1
  rw [ho] at ho1
  exact Option.some.inj ho1

/-- One of three cases holds of a file: no entry message, an entry message
without an event union, or both anchors. -/
theorem anchors_cases :
    (∀ m ∈ f.messages, (h.msg m).goName ≠ "GetEventsResponse") ∨
    (∃ m, IsEntry h f m ∧ ∀ o ∈ (h.msg m).oneofs, o.descName ≠ "event") ∨
    (∃ m o, IsEntry h f m ∧ IsEventOneof h m o) := by
  cases h1 : f.messages.find? (fun msg => (h.msg msg).goName == "GetEventsResponse") with
  | none =>
    left
    intro m hm
    simpa using List.find?_eq_none.mp h1 m hm
  | some m =>
    right
    have hm := (isEntry_iff_find h f m).mpr h1
    cases h2 : (h.msg m).oneofs.find? (fun oneof => oneof.descName == "event") with
    | none =>
      left
      refine ⟨m, hm, fun o ho => ?_⟩
      simpa using List.find?_eq_none.mp h2 o ho
    | some o =>
      right
      exact ⟨m, o, hm, (isEventOneof_iff_find h m o).mpr h2⟩

variable {h f}

theorem GetEvents_of_noEntry {c : Caches n k} (hc : c.eventsCache = [])
    (hno : ∀ m ∈ f.messages, (h.msg m).goName ≠ "GetEventsResponse") :
    GetEvents h f c = (.error "Unable to find GetEventsResponse message", c) := by
  have h1 : f.messages.find? (fun msg => (h.msg msg).goName == "GetEventsResponse") = none :=
    List.find?_eq_none.mpr (fun m hm => by simpa using hno m hm)
  unfold GetEvents
  rw [if_pos (by rw [hc]; rfl), h1]

theorem GetEvents_of_noOneof {c : Caches n k} (hc : c.eventsCache = []) {m : Fin n}
    (hm : IsEntry h f m) (hno : ∀ o ∈ (h.msg m).oneofs, o.descName ≠ "event") :
    GetEvents h f c = (.error "Unable to find GetEventsResponse.event", c) := by
  have h1 := (isEntry_iff_find h f m).mp hm
  have h2 : (h.msg m).oneofs.find? (fun oneof => oneof.descName == "event") = none :=
    List.find?_eq_none.mpr (fun o ho => by simpa using hno o ho)
  unfold GetEvents
  rw [if_pos (by rw [hc]; rfl), h1]
  dsimp only
  rw [h2]

theorem GetEvents_of_anchors {c : Caches n k} (hc : c.eventsCache = []) {m : Fin n}
    {o : Oneof n k} (hm : IsEntry h f m) (ho : IsEventOneof h m o) :
    GetEvents h f c = (.ok (messagesNamed h f (variantNames o)),
      { c with eventsCache := messagesNamed h f (variantNames o) }) := by
  have h1 := (isEntry_iff_find h f m).mp hm
  have h2 := (isEventOneof_iff_find h m o).mp ho
  unfold GetEvents
  rw [if_pos (by rw [hc]; rfl), h1]
  dsimp only
  rw [h2]
  dsimp only
  rw [hc, List.nil_append]
  rfl

/-- A successful call on an empty events cache found both anchors and returned
the declared messages named by the variants. -/
theorem GetEvents_ok_inv {c : Caches n k} (hc : c.eventsCache = []) {evs : List (Fin n)}
    (hev : (GetEvents h f c).1 = .ok evs) :
    ∃ m o, IsEntry h f m ∧ IsEventOneof h m o ∧ evs = messagesNamed h f (variantNames o) ∧
      GetEvents h f c = (.ok evs, { c with eventsCache := evs }) := by
  rcases anchors_cases h f with h1 | ⟨m, hm, h2⟩ | ⟨m, o, hm, ho⟩
  · rw [GetEvents_of_noEntry hc h1] at hev
    cases hev
  · rw [GetEvents_of_noOneof hc hm h2] at hev
    cases hev
  · have e := GetEvents_of_anchors hc hm ho
    rw [e] at hev
    obtain rfl := Result.ok.inj hev
    exact ⟨m, o, hm, ho, rfl, e⟩

/-- Calling `GetEvents` again after a success returns the same list and leaves
the caches as they are. -/
theorem GetEvents_again {c : Caches n k} (hc : c.eventsCache = []) {evs : List (Fin n)}
    (hev : (GetEvents h f c).1 = .ok evs) :
    GetEvents h f { c with eventsCache := evs } =
      (.ok evs, { c with eventsCache := evs }) := by
  obtain ⟨m, o, hm, ho, e, _⟩ := GetEvents_ok_inv hc hev
  cases hl : evs with
  | nil =>
    have e1 := GetEvents_of_anchors (c := { c with eventsCache := [] }) rfl hm ho
    rw [← e, hl] at e1
    exact e1
  | cons a l =>
    unfold GetEvents
    rw [if_neg (by simp)]

theorem GetFields_error {c : Caches n k} (hf : c.fieldsCache = []) {err : String}
    (hev : (GetEvents h f c).1 = .error err) :
    GetFields h f c = (.error err, (GetEvents h f c).2) := by
  unfold GetFields
  rw [if_pos (by rw [hf]; rfl)]
  generalize GetEvents h f c = p at hev
  obtain ⟨r, c1⟩ := p
  dsimp only at hev
  subst hev
  rfl

theorem GetFields_of_events {c : Caches n k} (hc : c.eventsCache = [])
    (hf : c.fieldsCache = []) {evs : List (Fin n)} (hev : (GetEvents h f c).1 = .ok evs) :
    GetFields h f c = (.ok (messagesNamed h f (validFields h evs)),
      { c with eventsCache := evs, fieldsCache := messagesNamed h f (validFields h evs) }) := by
  obtain ⟨m, o, hm, ho, e, hrun⟩ := GetEvents_ok_inv hc hev
  unfold GetFields
  rw [if_pos (by rw [hf]; rfl), hrun]
  dsimp only
  rw [hf, List.nil_append]
  rfl

/-- A successful call of `GetFields` on empty events and fields caches returned
the declared messages named by the walks from the events. -/
theorem GetFields_ok_inv {c : Caches n k} (hc : c.eventsCache = [])
    (hf : c.fieldsCache = []) {flds : List (Fin n)} (hfl : (GetFields h f c).1 = .ok flds) :
    ∃ evs, (GetEvents h f c).1 = .ok evs ∧ flds = messagesNamed h f (validFields h evs) := by
  cases hev : (GetEvents h f c).1 with
  | error err =>
    rw [GetFields_error hf hev] at hfl
    cases hfl
  | ok evs =>
    rw [GetFields_of_events hc hf hev] at hfl
    exact ⟨evs, rfl, (Result.ok.inj hfl).symm⟩

theorem GetFields_again {c : Caches n k} (hf : c.fieldsCache = []) {evs : List (Fin n)}
    (hev : GetEvents h f c = (.ok evs, c)) :
    GetFields h f c = (.ok (messagesNamed h f (validFields h evs)),
      { c with fieldsCache := messagesNamed h f (validFields h evs) }) := by
  unfold GetFields
  rw [if_pos (by rw [hf]; rfl), hev]
  dsimp only
  rw [hf, List.nil_append]
  rfl

theorem GetEnums_error {c : Caches n k} (he : c.enumsCache = []) {err : String}
    (hev : (GetEvents h f c).1 = .error err) :
    GetEnums h f c = (.error err, (GetEvents h f c).2) := by
  unfold GetEnums
  rw [if_pos (by rw [he]; rfl)]
  generalize GetEvents h f c = p at hev
  obtain ⟨r, c1⟩ := p
  dsimp only at hev
  subst hev
  rfl

theorem GetEnums_of_events {c : Caches n k} (hc : c.eventsCache = [])
    (hf : c.fieldsCache = []) (he : c.enumsCache = []) {evs : List (Fin n)}
    (hev : (GetEvents h f c).1 = .ok evs) :
    GetEnums h f c =
      (.ok (enumsNamed h f (validEnumNames h (evs ++ messagesNamed h f (validFields h evs)))),
        { eventsCache := evs
          fieldsCache := messagesNamed h f (validFields h evs)
          enumsCache :=
            enumsNamed h f (validEnumNames h (evs ++ messagesNamed h f (validFields h evs))) }) := by
  obtain ⟨m, o, hm, ho, e, hrun⟩ := GetEvents_ok_inv hc hev
  have h2 := GetFields_again (c := { c with eventsCache := evs }) hf (GetEvents_again hc hev)
  unfold GetEnums
  rw [if_pos (by rw [he]; rfl), hrun]
  dsimp only
  rw [h2]
  dsimp only
  rw [he, List.nil_append]
  rfl

/-- A successful call of `GetEnums` on empty caches returned the declared enums
named by the immediate fields of the events followed by the fields. -/
theorem GetEnums_ok_inv {c : Caches n k} (hc : c.eventsCache = [])
    (hf : c.fieldsCache = []) (he : c.enumsCache = []) {ens : List (Fin k)}
    (hen : (GetEnums h f c).1 = .ok ens) :
    ∃ evs flds, (GetEvents h f c).1 = .ok evs ∧ (GetFields h f c).1 = .ok flds ∧
      ens = enumsNamed h f (validEnumNames h (evs ++ flds)) := by
  cases hev : (GetEvents h f c).1 with
  | error err =>
    rw [GetEnums_error he hev] at hen
    cases hen
  | ok evs =>
    rw [GetEnums_of_events hc hf he hev] at hen
    refine ⟨evs, _, rfl, ?_, (Result.ok.inj hen).symm⟩
    rw [GetFields_of_events hc hf hev]

end accessors

/-! ## Facts about the closures -/

section closures

variable {n k : Nat} {h : Heap n k} {f : File n k}

theorem mem_messagesNamed {names : List String} {m : Fin n} :
    m ∈ messagesNamed h f names ↔ m ∈ f.messages ∧ (h.msg m).descName ∈ names := by
  unfold messagesNamed
  rw [List.mem_filter, decide_eq_true_iff]

theorem mem_enumsNamed {names : List String} {e : Fin k} :
    e ∈ enumsNamed h f names ↔ e ∈ f.enums ∧ (h.enum e).descName ∈ names := by
  unfold enumsNamed
  rw [List.mem_filter, decide_eq_true_iff]

theorem mem_validFields {evs : List (Fin n)} {s : String} :
    s ∈ validFields h evs ↔ ∃ e ∈ evs, s ∈ typeNames h (getFieldsForMessage h e) := by
  unfold validFields
  exact List.mem_flatMap

theorem mem_validEnumNames {ms : List (Fin n)} {s : String} :
    s ∈ validEnumNames h ms ↔
      ∃ m ∈ ms, ∃ field ∈ (h.msg m).fields, ∃ e, field.enum = some e ∧
        (h.enum e).descName = s := by
  unfold validEnumNames
  rw [List.mem_flatMap]
  constructor
  · rintro ⟨m, hm, hs⟩
    obtain ⟨field, hf, hs⟩ := List.mem_filterMap.mp hs
    refine ⟨m, hm, field, hf, ?_⟩
    cases he : field.enum with
    | none => rw [he] at hs; cases hs
    | some e => rw [he] at hs; exact ⟨e, rfl, Option.some.inj hs⟩
  · rintro ⟨m, hm, field, hf, e, he, hs⟩
    exact ⟨m, hm, List.mem_filterMap.mpr ⟨field, hf, by rw [he]; exact congrArg some hs⟩⟩

/-- The type of every message-typed field of the root is among the type names
of the walk from the root. -/
theorem direct_typeNames {e r : Fin n} {field : Field n k} (hf : field ∈ (h.msg e).fields)
    (hm : field.message = some r) :
    (h.msg r).goName ∈ typeNames h (getFieldsForMessage h e) := by
  obtain ⟨seen, p⟩ := getFieldsForMessage_walk h e
  rcases p.fresh _ (p.direct field hf r hm) with h1 | h1
  · exact absurd h1 (List.not_mem_nil _)
  · exact h1

/-- Every field returned by the walk from a root is message-typed, its type is
reachable from the root in one or more hops, and the types of that message's
own message-typed fields are among the type names of the walk. -/
theorem recorded_reach {e : Fin n} {field : Field n k}
    (hf : field ∈ getFieldsForMessage h e) :
    ∃ r, field.message = some r ∧ ReachPlus h e r ∧
      ∀ field1 ∈ (h.msg r).fields, ∀ r1, field1.message = some r1 →
        (h.msg r1).goName ∈ typeNames h (getFieldsForMessage h e) := by
  obtain ⟨seen, p⟩ := getFieldsForMessage_walk h e
  obtain ⟨r, hr, _, _, ⟨f0, hf0, r0, hm0, hreach⟩, hcl⟩ := p.recorded field hf
  refine ⟨r, hr, Relation.TransGen.head' ⟨f0, hf0, hm0⟩ hreach, ?_⟩
  intro f1 hf1 r1 hr1
  rcases p.fresh _ (hcl f1 hf1 r1 hr1) with h1 | h1
  · exact absurd h1 (List.not_mem_nil _)
  · exact h1

/-- A set of messages that contains `a` and is closed under field references
contains everything reachable from `a`. -/
theorem reach_invariant {P : Fin n → Prop} (hstep : ∀ a b, P a → Refs h a b → P b)
    {a b : Fin n} (hab : Reach h a b) (ha : P a) : P b := by
  induction hab with
  | refl => exact ha
  | tail _ hbc ih => exact hstep _ _ ih hbc

/-- A set of messages that contains the field types of `a` and is closed under
field references contains everything reachable from `a` in one or more hops. -/
theorem reachPlus_invariant {P : Fin n → Prop} {a : Fin n} (hfirst : ∀ b, Refs h a b → P b)
    (hstep : ∀ a b, P a → Refs h a b → P b) {b : Fin n} (hab : ReachPlus h a b) : P b := by
  induction hab with
  | single hb => exact hfirst _ hb
  | tail _ hbc ih => exact hstep _ _ ih hbc

end closures

/-! ## The closures: completeness, disjointness, duplicates, order -/

/-- C1, as stated, fails: in `importFile` the event `Exec` has a field of the
imported message type `Timestamp`; `GetEvents` returns `[Exec]`, `GetFields`
returns the empty list, and `Timestamp` is in neither (nor is any message of
that name). -/
theorem closure_completeness_counterexample :
    (GetEvents importHeap importFile (Caches.empty 3 0)).1 = .ok [1] ∧
    (GetFields importHeap importFile (Caches.empty 3 0)).1 = .ok [] ∧
    (1 : Fin 3) ∈ [(1 : Fin 3)] ++ [] ∧
    Field.ofMessage "Exec_Time" 2 ∈ (importHeap.msg 1).fields ∧
    (Field.ofMessage "Exec_Time" 2 : Field 3 0).message = some 2 ∧
    (2 : Fin 3) ∉ [(1 : Fin 3)] ++ [] ∧
    ∀ m ∈ [(1 : Fin 3)] ++ [], (importHeap.msg m).descName ≠ (importHeap.msg 2).descName := by
  decide

/-- C1, amended: when `GetEvents(f)` and `GetFields(f)` succeed from empty
caches, and a declared message of `f` whose declared name equals the Go type
name of a message reachable from an event is that message, then for every `m`
in Events ++ Fields every message-typed field of `m` whose type is declared in
`f.Messages` under a declared name equal to its Go type name references a
member of Fields, hence of Events ++ Fields. -/
theorem closure_completeness_declared {n k : Nat} (h : Heap n k) (f : File n k)
    (evs flds : List (Fin n))
    (hev : (GetEvents h f (Caches.empty n k)).1 = .ok evs)
    (hfl : (GetFields h f (Caches.empty n k)).1 = .ok flds)
    (hres : ∀ a ∈ f.messages, ∀ e ∈ evs, ∀ b, ReachPlus h e b →
      (h.msg a).descName = (h.msg b).goName → a = b) :
    ∀ m ∈ evs ++ flds, ∀ field ∈ (h.msg m).fields, ∀ r, field.message = some r →
      r ∈ f.messages → (h.msg r).descName = (h.msg r).goName →
        r ∈ flds ∧ r ∈ evs ++ flds := by
  obtain ⟨evs1, hev1, rfl⟩ := GetFields_ok_inv (c := Caches.empty n k) rfl rfl hfl
  rw [hev] at hev1
  obtain rfl := Result.ok.inj hev1
  intro m hm field hf r hr hdecl hname
  have key : (h.msg r).goName ∈ validFields h evs := by
    rcases List.mem_append.mp hm with hm | hm
    · exact mem_validFields.mpr ⟨m, hm, direct_typeNames hf hr⟩
    · obtain ⟨hmf, hmn⟩ := mem_messagesNamed.mp hm
      obtain ⟨e, he, hs⟩ := mem_validFields.mp hmn
      obtain ⟨f0, hf0, r0, hr0, hn0⟩ := (mem_typeNames h).mp hs
      obtain ⟨r1, hr1, hreach, hcl⟩ := recorded_reach hf0
      rw [hr0] at hr1
      obtain rfl := Option.some.inj hr1
      obtain rfl := hres m hmf e he r0 hreach hn0.symm
      exact mem_validFields.mpr ⟨e, he, hcl field hf r hr⟩
  have hin : r ∈ messagesNamed h f (validFields h evs) :=
    mem_messagesNamed.mpr ⟨hdecl, by rw [hname]; exact key⟩
  exact ⟨hin, List.mem_append_right _ hin⟩

/-- C1, amended, at the scenario of the specification: `Process` has the
field `pod : Pod`, and `Pod` is in Fields. -/
theorem closure_completeness_declared_witness :
    (3 : Fin 5) ∈ [(1 : Fin 5), 2] ++ [3, 4] ∧
    ((4 : Fin 5) ∈ [(3 : Fin 5), 4] ∧ (4 : Fin 5) ∈ [(1 : Fin 5), 2] ++ [3, 4]) :=
  ⟨by decide,
    closure_completeness_declared scenarioHeap scenarioFile [1, 2] [3, 4]
      (by decide) (by decide)
      (fun a _ _ _ b _ hab =>
        (by decide : ∀ a b : Fin 5,
          (scenarioHeap.msg a).descName = (scenarioHeap.msg b).goName → a = b) a b hab)
      3 (by decide) (Field.ofMessage "Process_Pod" 4) (by decide) 4 rfl
      (by decide) (by decide)⟩

/-- C2, as stated, fails: in `selfFile` the event `Exec` has a field of type
`Exec`, and `Exec` is returned by both `GetEvents` and `GetFields`. -/
theorem disjointness_counterexample :
    (GetEvents selfHeap selfFile (Caches.empty 2 0)).1 = .ok [1] ∧
    (GetFields selfHeap selfFile (Caches.empty 2 0)).1 = .ok [1] ∧
    (1 : Fin 2) ∈ [(1 : Fin 2)] ∧
    Field.ofMessage "Exec_Parent" 1 ∈ (selfHeap.msg 1).fields := by
  decide

/-- C2, amended: when `GetEvents(f)` and `GetFields(f)` succeed from empty
caches and no message reachable from an event in one or more message-typed
field hops has a Go type name equal to the declared name of a member of
Events, no message is in both Events and Fields. -/
theorem disjointness_unless_referenced {n k : Nat} (h : Heap n k) (f : File n k)
    (evs flds : List (Fin n))
    (hev : (GetEvents h f (Caches.empty n k)).1 = .ok evs)
    (hfl : (GetFields h f (Caches.empty n k)).1 = .ok flds)
    (hno : ∀ e ∈ evs, ∀ r, ReachPlus h e r → ∀ e1 ∈ evs,
      (h.msg r).goName ≠ (h.msg e1).descName) :
    ∀ m, m ∈ evs → m ∉ flds := by
  obtain ⟨evs1, hev1, rfl⟩ := GetFields_ok_inv (c := Caches.empty n k) rfl rfl hfl
  rw [hev] at hev1
  obtain rfl := Result.ok.inj hev1
  intro m hm hmf
  obtain ⟨e, he, hs⟩ := mem_validFields.mp (mem_messagesNamed.mp hmf).2
  obtain ⟨f0, hf0, r0, hr0, hn0⟩ := (mem_typeNames h).mp hs
  obtain ⟨r1, hr1, hreach, _⟩ := recorded_reach hf0
  rw [hr0] at hr1
  obtain rfl := Option.some.inj hr1
  exact hno e he r0 hreach m hm hn0

/-- C2, amended, at the scenario of the specification: the events `Exec` and
`Exit` reach only `Process` and `Pod`, and neither event is in Fields. -/
theorem disjointness_unless_referenced_witness :
    (1 : Fin 5) ∈ [(1 : Fin 5), 2] ∧ (1 : Fin 5) ∉ [(3 : Fin 5), 4] :=
  ⟨by decide,
    disjointness_unless_referenced scenarioHeap scenarioFile [1, 2] [3, 4]
      (by decide) (by decide)
      (fun e he r hr e1 he1 =>
        (by decide : ∀ r e1 : Fin 5, r ∈ [(3 : Fin 5), 4] → e1 ∈ [(1 : Fin 5), 2] →
          (scenarioHeap.msg r).goName ≠ (scenarioHeap.msg e1).descName) r e1
          (reachPlus_invariant (P := fun x => x ∈ [(3 : Fin 5), 4])
            (fun b hb =>
              (by decide : ∀ a b : Fin 5, a ∈ [(1 : Fin 5), 2] → Refs scenarioHeap a b →
                b ∈ [(3 : Fin 5), 4]) e b he hb)
            (by decide) hr)
          he1)
      1 (by decide)⟩

/-- C3, as stated, fails: in `importEnumFile` the event `Exec` has a field of
the imported enum type `Kind`, and `GetEnums` returns the empty list. -/
theorem enum_completeness_counterexample :
    (GetEnums importEnumHeap importEnumFile (Caches.empty 2 1)).1 = .ok [] ∧
    (GetEvents importEnumHeap importEnumFile (Caches.empty 2 1)).1 = .ok [1] ∧
    (GetFields importEnumHeap importEnumFile (Caches.empty 2 1)).1 = .ok [] ∧
    (1 : Fin 2) ∈ [(1 : Fin 2)] ++ [] ∧
    Field.ofEnum "Exec_Kind" 0 ∈ (importEnumHeap.msg 1).fields ∧
    (Field.ofEnum "Exec_Kind" 0 : Field 2 1).enum = some 0 ∧
    (0 : Fin 1) ∉ ([] : List (Fin 1)) := by
  decide

/-- C3, amended: when `GetEnums(f)` succeeds from empty caches, for every
message `m` in Events ++ Fields every enum-typed field of `m` whose enum is
declared in `f.Enums` references a member of the sequence returned by
`GetEnums(f)`. -/
theorem enum_completeness_declared {n k : Nat} (h : Heap n k) (f : File n k)
    (evs flds : List (Fin n)) (ens : List (Fin k))
    (hev : (GetEvents h f (Caches.empty n k)).1 = .ok evs)
    (hfl : (GetFields h f (Caches.empty n k)).1 = .ok flds)
    (hen : (GetEnums h f (Caches.empty n k)).1 = .ok ens) :
    ∀ m ∈ evs ++ flds, ∀ field ∈ (h.msg m).fields, ∀ e, field.enum = some e →
      e ∈ f.enums → e ∈ ens := by
  obtain ⟨evs1, flds1, hev1, hfl1, rfl⟩ :=
    GetEnums_ok_inv (c := Caches.empty n k) rfl rfl rfl hen
  rw [hev] at hev1
  rw [hfl] at hfl1
  obtain rfl := Result.ok.inj hev1
  obtain rfl := Result.ok.inj hfl1
  intro m hm field hf e he hdecl
  exact mem_enumsNamed.mpr ⟨hdecl, mem_validEnumNames.mpr ⟨m, hm, field, hf, e, he, rfl⟩⟩

/-- C3, amended, at the scenario of the specification: `Pod` has the field
`status : PodStatus`, and `PodStatus` is in Enums. -/
theorem enum_completeness_declared_witness : (0 : Fin 1) ∈ [(0 : Fin 1)] :=
  enum_completeness_declared scenarioHeap scenarioFile [1, 2] [3, 4] [0]
    (by decide) (by decide) (by decide)
    4 (by decide) (Field.ofEnum "Pod_Status" 0) (by decide) 0 rfl (by decide)

/-- C5: starting from empty caches, the sequences returned by `GetEvents(f)`
and `GetFields(f)` are order-preserving sublists of `f.Messages`, and the
sequence returned by `GetEnums(f)` is an order-preserving sublist of
`f.Enums`. -/
theorem declaration_order {n k : Nat} (h : Heap n k) (f : File n k) :
    (∀ evs, (GetEvents h f (Caches.empty n k)).1 = .ok evs → evs.Sublist f.messages) ∧
    (∀ flds, (GetFields h f (Caches.empty n k)).1 = .ok flds → flds.Sublist f.messages) ∧
    (∀ ens, (GetEnums h f (Caches.empty n k)).1 = .ok ens → ens.Sublist f.enums) := by
  refine ⟨?_, ?_, ?_⟩
  · intro evs hev
    obtain ⟨m, o, _, _, rfl, _⟩ := GetEvents_ok_inv (c := Caches.empty n k) rfl hev
    exact List.filter_sublist _
  · intro flds hfl
    obtain ⟨evs, _, rfl⟩ := GetFields_ok_inv (c := Caches.empty n k) rfl rfl hfl
    exact List.filter_sublist _
  · intro ens hen
    obtain ⟨evs, flds, _, _, rfl⟩ := GetEnums_ok_inv (c := Caches.empty n k) rfl rfl rfl hen
    exact List.filter_sublist _

/-- C5 at the scenario of the specification: `[Exec, Exit]` and
`[Process, Pod]` are sublists of the declared messages and `[PodStatus]` of the
declared enums. -/
theorem declaration_order_witness :
    [(1 : Fin 5), 2].Sublist scenarioFile.messages ∧
    [(3 : Fin 5), 4].Sublist scenarioFile.messages ∧
    [(0 : Fin 1)].Sublist scenarioFile.enums :=
  ⟨(declaration_order scenarioHeap scenarioFile).1 [1, 2] (by decide),
    (declaration_order scenarioHeap scenarioFile).2.1 [3, 4] (by decide),
    (declaration_order scenarioHeap scenarioFile).2.2 [0] (by decide)⟩

/-! ## The two anchors and the events -/

/-- C6: on an empty events cache `GetEvents(f)` returns the error "Unable to
find GetEventsResponse message" if and only if no message of `f.Messages` has
the Go name `GetEventsResponse`; it then returns no list and leaves the caches
as they were. -/
theorem entry_not_found {n k : Nat} (h : Heap n k) (f : File n k) (c : Caches n k)
    (hc : c.eventsCache = []) :
    ((GetEvents h f c).1 = .error "Unable to find GetEventsResponse message" ↔
      ∀ m ∈ f.messages, (h.msg m).goName ≠ "GetEventsResponse") ∧
    ((∀ m ∈ f.messages, (h.msg m).goName ≠ "GetEventsResponse") →
      GetEvents h f c = (.error "Unable to find GetEventsResponse message", c)) := by
  refine ⟨⟨fun herr => ?_, fun hno => by rw [GetEvents_of_noEntry hc hno]⟩,
    fun hno => GetEvents_of_noEntry hc hno⟩
  rcases anchors_cases h f with h1 | ⟨m, hm, h2⟩ | ⟨m, o, hm, ho⟩
  · exact h1
  · rw [GetEvents_of_noOneof hc hm h2] at herr
    exact absurd (Result.error.inj herr) (by decide)
  · rw [GetEvents_of_anchors hc hm ho] at herr
    cases herr

/-- C6 at a file that declares only `Exec`: the call fails with the
entry-not-found error. -/
theorem entry_not_found_witness :
    GetEvents noEntryHeap noEntryFile (Caches.empty 1 0) =
      (.error "Unable to find GetEventsResponse message", Caches.empty 1 0) :=
  (entry_not_found noEntryHeap noEntryFile (Caches.empty 1 0) rfl).2 (by decide)

/-- C7: on an empty events cache `GetEvents(f)` returns the error "Unable to
find GetEventsResponse.event" if and only if `f` has a message with Go name
`GetEventsResponse` and the first such message has no oneof named `event`; and
whenever the first such message has a oneof named `event`, `GetEvents(f)`
succeeds, whatever the variants of that oneof are. -/
theorem union_not_found {n k : Nat} (h : Heap n k) (f : File n k) (c : Caches n k)
    (hc : c.eventsCache = []) :
    ((GetEvents h f c).1 = .error "Unable to find GetEventsResponse.event" ↔
      ∃ m, IsEntry h f m ∧ ∀ o ∈ (h.msg m).oneofs, o.descName ≠ "event") ∧
    (∀ m o, IsEntry h f m → o ∈ (h.msg m).oneofs → o.descName = "event" →
      ∃ evs, (GetEvents h f c).1 = .ok evs) := by
  refine ⟨⟨fun herr => ?_, ?_⟩, ?_⟩
  · rcases anchors_cases h f with h1 | ⟨m, hm, h2⟩ | ⟨m, o, hm, ho⟩
    · rw [GetEvents_of_noEntry hc h1] at herr
      exact absurd (Result.error.inj herr) (by decide)
    · exact ⟨m, hm, h2⟩
    · rw [GetEvents_of_anchors hc hm ho] at herr
      cases herr
  · rintro ⟨m, hm, h2⟩
    rw [GetEvents_of_noOneof hc hm h2]
  · intro m o hm ho hname
    rcases anchors_cases h f with h1 | ⟨m1, hm1, h2⟩ | ⟨m1, o1, hm1, ho1⟩
    · have hmem := isEntry_mem h f hm
      obtain ⟨_, _, _, hg, _⟩ := hm
      exact absurd hg (h1 m hmem)
    · obtain rfl := isEntry_unique h f hm hm1
      exact absurd hname (h2 o ho)
    · exact ⟨_, by rw [GetEvents_of_anchors hc hm1 ho1]⟩

/-- C7 at a file whose entry message has only the oneof `payload`: the call
fails with the union-not-found error. -/
theorem union_not_found_witness :
    (GetEvents noUnionHeap noUnionFile (Caches.empty 2 0)).1 =
      .error "Unable to find GetEventsResponse.event" :=
  ((union_not_found noUnionHeap noUnionFile (Caches.empty 2 0) rfl).1).mpr
    ⟨0, ⟨[], [1], rfl, by decide, by decide⟩, by decide⟩

/-- C8: on an empty events cache, when `m` is the entry message of `f` and `o`
its event union, `GetEvents(f)` succeeds and a message `x` is in its result if
and only if `x` is in `f.Messages` and the declared name of `x` equals
`strings.TrimPrefix(v.GoName, "GetEventsResponse_")` for some variant field `v`
of `o`. -/
theorem events_membership {n k : Nat} (h : Heap n k) (f : File n k) (c : Caches n k)
    (hc : c.eventsCache = []) (m : Fin n) (o : Oneof n k)
    (hm : IsEntry h f m) (ho : IsEventOneof h m o) :
    ∃ evs, (GetEvents h f c).1 = .ok evs ∧
      ∀ x, x ∈ evs ↔ x ∈ f.messages ∧
        ∃ v ∈ o.fields, (h.msg x).descName = TrimPrefix v.goName "GetEventsResponse_" := by
  refine ⟨_, by rw [GetEvents_of_anchors hc hm ho], fun x => ?_⟩
  rw [mem_messagesNamed, variantNames, List.mem_map]
  constructor
  · rintro ⟨hx, v, hv, e⟩
    exact ⟨hx, v, hv, e.symm⟩
  · rintro ⟨hx, v, hv, e⟩
    exact ⟨hx, v, hv, e.symm⟩

/-- C8 at a file whose event union lists `Exec`, declared in the file, and
`Test`, not declared in it: the result is `[Exec]` and the variant `Test`
contributes nothing. -/
theorem events_membership_witness :
    (GetEvents droppedHeap droppedFile (Caches.empty 3 0)).1 = .ok [1] ∧
    ∃ evs, (GetEvents droppedHeap droppedFile (Caches.empty 3 0)).1 = .ok evs ∧
      ∀ x, x ∈ evs ↔ x ∈ droppedFile.messages ∧
        ∃ v ∈ [(Field.ofMessage "GetEventsResponse_Exec" 1 : Field 3 0),
            Field.ofMessage "GetEventsResponse_Test" 2],
          (droppedHeap.msg x).descName = TrimPrefix v.goName "GetEventsResponse_" :=
  ⟨by decide,
    events_membership droppedHeap droppedFile (Caches.empty 3 0) rfl 0
      ⟨"event", [Field.ofMessage "GetEventsResponse_Exec" 1,
        Field.ofMessage "GetEventsResponse_Test" 2]⟩
      ⟨[], [1], rfl, by decide, by decide⟩
      ⟨[], [], rfl, by decide, by decide⟩⟩

/-! ## Soundness of the fields and enums closures -/

/-- C9, as stated, fails: `shadowFile` declares a message `Process` that no
field references, while the event `Exec` has a field of the imported type
`Process`; `GetFields` returns the declared `Process`, which is not reachable
from the only event. -/
theorem fields_soundness_counterexample :
    (GetEvents shadowHeap shadowFile (Caches.empty 4 0)).1 = .ok [1] ∧
    (GetFields shadowHeap shadowFile (Caches.empty 4 0)).1 = .ok [2] ∧
    ∀ e ∈ [(1 : Fin 4)], ¬ Reach shadowHeap e 2 := by
  refine ⟨by decide, by decide, ?_⟩
  intro e he hreach
  have hinv : (2 : Fin 4) ∈ [(1 : Fin 4), 3] :=
    reach_invariant (P := fun x => x ∈ [(1 : Fin 4), 3])
      (by decide) hreach
      ((by decide : ∀ e : Fin 4, e ∈ [(1 : Fin 4)] → e ∈ [(1 : Fin 4), 3]) e he)
  exact absurd hinv (by decide)

/-- C9, amended: when `GetEvents(f)` and `GetFields(f)` succeed from empty
caches, every message in Fields is declared in `f.Messages` and its declared
name equals the Go type name of a message reachable from some event by one or
more message-typed field hops; and when a declared message of `f` whose
declared name equals the Go type name of such a reachable message is that
message, every message in Fields is itself reachable from some event by one or
more message-typed field hops. -/
theorem fields_soundness_by_name {n k : Nat} (h : Heap n k) (f : File n k)
    (evs flds : List (Fin n))
    (hev : (GetEvents h f (Caches.empty n k)).1 = .ok evs)
    (hfl : (GetFields h f (Caches.empty n k)).1 = .ok flds) :
    (∀ m ∈ flds, m ∈ f.messages ∧ ∃ e ∈ evs, ∃ r, ReachPlus h e r ∧
      (h.msg m).descName = (h.msg r).goName) ∧
    ((∀ a ∈ f.messages, ∀ e ∈ evs, ∀ b, ReachPlus h e b →
        (h.msg a).descName = (h.msg b).goName → a = b) →
      ∀ m ∈ flds, ∃ e ∈ evs, ReachPlus h e m) := by
  obtain ⟨evs1, hev1, rfl⟩ := GetFields_ok_inv (c := Caches.empty n k) rfl rfl hfl
  rw [hev] at hev1
  obtain rfl := Result.ok.inj hev1
  have key : ∀ m ∈ messagesNamed h f (validFields h evs), m ∈ f.messages ∧
      ∃ e ∈ evs, ∃ r, ReachPlus h e r ∧ (h.msg m).descName = (h.msg r).goName := by
    intro m hm
    obtain ⟨hmf, hmn⟩ := mem_messagesNamed.mp hm
    obtain ⟨e, he, hs⟩ := mem_validFields.mp hmn
    obtain ⟨f0, hf0, r0, hr0, hn0⟩ := (mem_typeNames h).mp hs
    obtain ⟨r1, hr1, hreach, _⟩ := recorded_reach hf0
    rw [hr0] at hr1
    obtain rfl := Option.some.inj hr1
    exact ⟨hmf, e, he, r0, hreach, hn0.symm⟩
  refine ⟨key, fun hres m hm => ?_⟩
  obtain ⟨hmf, e, he, r, hreach, hname⟩ := key m hm
  obtain rfl := hres m hmf e he r hreach hname
  exact ⟨e, he, hreach⟩

/-- C9, amended, at the scenario of the specification: `Pod` is in Fields and
is reachable from an event. -/
theorem fields_soundness_by_name_witness :
    ∃ e ∈ [(1 : Fin 5), 2], ReachPlus scenarioHeap e 4 :=
  (fields_soundness_by_name scenarioHeap scenarioFile [1, 2] [3, 4]
    (by decide) (by decide)).2
    (fun a _ _ _ b _ hab =>
      (by decide : ∀ a b : Fin 5,
        (scenarioHeap.msg a).descName = (scenarioHeap.msg b).goName → a = b) a b hab)
    4 (by decide)

/-- C10, as stated, fails: `shadowEnumFile` declares a top-level enum `Type`
that no field references, while the event `Exec` has a field whose type is the
enum `Type` nested in `Exec`; `GetEnums` returns the top-level enum, which is
the type of no field of any message in Events ++ Fields. -/
theorem enums_soundness_counterexample :
    (GetEnums shadowEnumHeap shadowEnumFile (Caches.empty 2 2)).1 = .ok [0] ∧
    (GetEvents shadowEnumHeap shadowEnumFile (Caches.empty 2 2)).1 = .ok [1] ∧
    (GetFields shadowEnumHeap shadowEnumFile (Caches.empty 2 2)).1 = .ok [] ∧
    ∀ m ∈ [(1 : Fin 2)] ++ [], ∀ field ∈ (shadowEnumHeap.msg m).fields,
      field.enum ≠ some 0 := by
  decide

/-- C10, amended: when `GetEnums(f)` succeeds from empty caches, every enum in
its result is declared in `f.Enums` and has the declared name of the enum type
of an immediate enum-typed field of some message in Events ++ Fields; and when
an enum of `f.Enums` with the declared name of another enum is that enum, every
enum in the result is the type of an immediate enum-typed field of some message
in Events ++ Fields. -/
theorem enums_soundness_by_name {n k : Nat} (h : Heap n k) (f : File n k)
    (evs flds : List (Fin n)) (ens : List (Fin k))
    (hev : (GetEvents h f (Caches.empty n k)).1 = .ok evs)
    (hfl : (GetFields h f (Caches.empty n k)).1 = .ok flds)
    (hen : (GetEnums h f (Caches.empty n k)).1 = .ok ens) :
    (∀ e ∈ ens, e ∈ f.enums ∧ ∃ m ∈ evs ++ flds, ∃ field ∈ (h.msg m).fields,
      ∃ e1, field.enum = some e1 ∧ (h.enum e).descName = (h.enum e1).descName) ∧
    ((∀ a ∈ f.enums, ∀ b, (h.enum a).descName = (h.enum b).descName → a = b) →
      ∀ e ∈ ens, ∃ m ∈ evs ++ flds, ∃ field ∈ (h.msg m).fields, field.enum = some e) := by
  obtain ⟨evs1, flds1, hev1, hfl1, rfl⟩ :=
    GetEnums_ok_inv (c := Caches.empty n k) rfl rfl rfl hen
  rw [hev] at hev1
  rw [hfl] at hfl1
  obtain rfl := Result.ok.inj hev1
  obtain rfl := Result.ok.inj hfl1
  have key : ∀ e ∈ enumsNamed h f (validEnumNames h (evs ++ flds)), e ∈ f.enums ∧
      ∃ m ∈ evs ++ flds, ∃ field ∈ (h.msg m).fields,
        ∃ e1, field.enum = some e1 ∧ (h.enum e).descName = (h.enum e1).descName := by
    intro e he
    obtain ⟨hef, hen0⟩ := mem_enumsNamed.mp he
    obtain ⟨m, hm, field, hf, e1, he1, hn⟩ := mem_validEnumNames.mp hen0
    exact ⟨hef, m, hm, field, hf, e1, he1, hn.symm⟩
  refine ⟨key, fun hres e he => ?_⟩
  obtain ⟨hef, m, hm, field, hf, e1, he1, hn⟩ := key e he
  obtain rfl := hres e hef e1 hn
  exact ⟨m, hm, field, hf, he1⟩

/-- C10, amended, at the scenario of the specification: `PodStatus` is the
type of a field of a message in Events ++ Fields. -/
theorem enums_soundness_by_name_witness :
    ∃ m ∈ [(1 : Fin 5), 2] ++ [3, 4], ∃ field ∈ (scenarioHeap.msg m).fields,
      field.enum = some (0 : Fin 1) :=
  (enums_soundness_by_name scenarioHeap scenarioFile [1, 2] [3, 4] [0]
    (by decide) (by decide) (by decide)).2 (by decide) 0 (by decide)

/-! ## The accessors on any cache state -/

section anycache

variable {n k : Nat} {h : Heap n k}

theorem GetEvents_cached (g : File n k) {c : Caches n k} (hc : c.eventsCache ≠ []) :
    GetEvents h g c = (.ok c.eventsCache, c) := by
  unfold GetEvents
  rw [if_neg (fun h0 => hc (List.length_eq_zero.mp h0))]

theorem GetFields_cached (g : File n k) {c : Caches n k} (hc : c.fieldsCache ≠ []) :
    GetFields h g c = (.ok c.fieldsCache, c) := by
  unfold GetFields
  rw [if_neg (fun h0 => hc (List.length_eq_zero.mp h0))]

theorem GetEnums_cached (g : File n k) {c : Caches n k} (hc : c.enumsCache ≠ []) :
    GetEnums h g c = (.ok c.enumsCache, c) := by
  unfold GetEnums
  rw [if_neg (fun h0 => hc (List.length_eq_zero.mp h0))]

/-- On an empty events cache `GetEvents` returns what it returns from empty
caches and stores it. -/
theorem GetEvents_fresh (f : File n k) {c : Caches n k} (hc : c.eventsCache = []) :
    GetEvents h f c = ((GetEvents h f (Caches.empty n k)).1,
      c.withEvents (GetEvents h f (Caches.empty n k)).1) := by
  rcases anchors_cases h f with h1 | ⟨m, hm, h2⟩ | ⟨m, o, hm, ho⟩
  · rw [GetEvents_of_noEntry hc h1, GetEvents_of_noEntry (c := Caches.empty n k) rfl h1]
    rfl
  · rw [GetEvents_of_noOneof hc hm h2, GetEvents_of_noOneof (c := Caches.empty n k) rfl hm h2]
    rfl
  · rw [GetEvents_of_anchors hc hm ho, GetEvents_of_anchors (c := Caches.empty n k) rfl hm ho]
    rfl

/-- `GetEvents` touches no cache but `eventsCache`. -/
theorem GetEvents_frame (g : File n k) (c : Caches n k) :
    (GetEvents h g c).2.fieldsCache = c.fieldsCache ∧
    (GetEvents h g c).2.enumsCache = c.enumsCache := by
  by_cases hc : c.eventsCache = []
  · rw [GetEvents_fresh g hc]
    cases (GetEvents h g (Caches.empty n k)).1 <;> exact ⟨rfl, rfl⟩
  · rw [GetEvents_cached g hc]
    exact ⟨rfl, rfl⟩

/-- What `GetEvents` returns with success is what `eventsCache` then holds. -/
theorem GetEvents_stores (g : File n k) (c : Caches n k) {evs : List (Fin n)}
    (hev : (GetEvents h g c).1 = .ok evs) : (GetEvents h g c).2.eventsCache = evs := by
  by_cases hc : c.eventsCache = []
  · rw [GetEvents_fresh g hc] at hev ⊢
    dsimp only at hev ⊢
    rw [hev]
    rfl
  · rw [GetEvents_cached g hc] at hev ⊢
    exact Result.ok.inj hev

theorem GetFields_step_error (g : File n k) {c c1 : Caches n k} (hf : c.fieldsCache = [])
    {err : String} (hev : GetEvents h g c = (.error err, c1)) :
    GetFields h g c = (.error err, c1) := by
  unfold GetFields
  rw [if_pos (by rw [hf]; rfl), hev]

theorem GetFields_step_ok (g : File n k) {c c1 : Caches n k} (hf : c.fieldsCache = [])
    {evs : List (Fin n)} (hev : GetEvents h g c = (.ok evs, c1)) :
    GetFields h g c = (.ok (messagesNamed h g (validFields h evs)),
      { c1 with fieldsCache := messagesNamed h g (validFields h evs) }) := by
  have h1 : c1.fieldsCache = [] := by
    have := (GetEvents_frame (h := h) g c).1
    rw [hev] at this
    exact this.trans hf
  unfold GetFields
  rw [if_pos (by rw [hf]; rfl), hev]
  dsimp only
  rw [h1, List.nil_append]
  rfl

/-- `GetFields` does not touch `enumsCache`, and leaves a non-empty
`eventsCache` as it is. -/
theorem GetFields_frame (g : File n k) (c : Caches n k) :
    (GetFields h g c).2.enumsCache = c.enumsCache ∧
    (c.eventsCache ≠ [] → (GetFields h g c).2.eventsCache = c.eventsCache) := by
  by_cases hf : c.fieldsCache = []
  · have hfr := GetEvents_frame (h := h) g c
    cases hev : GetEvents h g c with
    | mk r c1 =>
      rw [hev] at hfr
      have hc1 : c.eventsCache ≠ [] → c1.eventsCache = c.eventsCache := by
        intro hc
        rw [GetEvents_cached g hc] at hev
        rw [← (Prod.mk.inj hev).2]
      cases r with
      | error err =>
        rw [GetFields_step_error g hf hev]
        exact ⟨hfr.2, hc1⟩
      | ok evs =>
        rw [GetFields_step_ok g hf hev]
        exact ⟨hfr.2, hc1⟩
  · rw [GetFields_cached g hf]
    exact ⟨rfl, fun _ => rfl⟩

/-- What `GetFields` returns with success is what `fieldsCache` then holds. -/
theorem GetFields_stores (g : File n k) (c : Caches n k) {flds : List (Fin n)}
    (hfl : (GetFields h g c).1 = .ok flds) : (GetFields h g c).2.fieldsCache = flds := by
  by_cases hf : c.fieldsCache = []
  · cases hev : GetEvents h g c with
    | mk r c1 =>
      cases r with
      | error err =>
        rw [GetFields_step_error g hf hev] at hfl
        cases hfl
      | ok evs =>
        rw [GetFields_step_ok g hf hev] at hfl ⊢
        exact Result.ok.inj hfl
  · rw [GetFields_cached g hf] at hfl ⊢
    exact Result.ok.inj hfl

theorem GetEnums_step_error (g : File n k) {c c1 : Caches n k} (he : c.enumsCache = [])
    {err : String} (hev : GetEvents h g c = (.error err, c1)) :
    GetEnums h g c = (.error err, c1) := by
  unfold GetEnums
  rw [if_pos (by rw [he]; rfl), hev]

theorem GetEnums_step_error2 (g : File n k) {c c1 c2 : Caches n k} (he : c.enumsCache = [])
    {evs : List (Fin n)} {err : String} (hev : GetEvents h g c = (.ok evs, c1))
    (hfl : GetFields h g c1 = (.error err, c2)) :
    GetEnums h g c = (.error err, c2) := by
  unfold GetEnums
  rw [if_pos (by rw [he]; rfl), hev]
  dsimp only
  rw [hfl]

theorem GetEnums_step_ok (g : File n k) {c c1 c2 : Caches n k} (he : c.enumsCache = [])
    {evs flds : List (Fin n)} (hev : GetEvents h g c = (.ok evs, c1))
    (hfl : GetFields h g c1 = (.ok flds, c2)) :
    GetEnums h g c = (.ok (enumsNamed h g (validEnumNames h (evs ++ flds))),
      { c2 with enumsCache := enumsNamed h g (validEnumNames h (evs ++ flds)) }) := by
  have h1 : c1.enumsCache = [] := by
    have := (GetEvents_frame (h := h) g c).2
    rw [hev] at this
    exact this.trans he
  have h2 : c2.enumsCache = [] := by
    have := (GetFields_frame (h := h) g c1).1
    rw [hfl] at this
    exact this.trans h1
  unfold GetEnums
  rw [if_pos (by rw [he]; rfl), hev]
  dsimp only
  rw [hfl]
  dsimp only
  rw [h2, List.nil_append]
  rfl

/-- `GetEnums` leaves a non-empty `eventsCache` and a non-empty `fieldsCache` as
they are. -/
theorem GetEnums_frame (g : File n k) (c : Caches n k) :
    (c.eventsCache ≠ [] → (GetEnums h g c).2.eventsCache = c.eventsCache) ∧
    (c.fieldsCache ≠ [] → (GetEnums h g c).2.fieldsCache = c.fieldsCache) := by
  by_cases he : c.enumsCache = []
  · have hfr := GetEvents_frame (h := h) g c
    cases hev : GetEvents h g c with
    | mk r c1 =>
      rw [hev] at hfr
      have hc1 : c.eventsCache ≠ [] → c1.eventsCache = c.eventsCache := by
        intro hc
        rw [GetEvents_cached g hc] at hev
        rw [← (Prod.mk.inj hev).2]
      cases r with
      | error err =>
        rw [GetEnums_step_error g he hev]
        exact ⟨hc1, fun _ => hfr.1⟩
      | ok evs =>
        have hfr2 := GetFields_frame (h := h) g c1
        cases hfl : GetFields h g c1 with
        | mk r2 c2 =>
          rw [hfl] at hfr2
          have hc2 : c.eventsCache ≠ [] → c2.eventsCache = c.eventsCache := by
            intro hc
            rw [hfr2.2 (by rw [hc1 hc]; exact hc), hc1 hc]
          have hf2 : c.fieldsCache ≠ [] → c2.fieldsCache = c.fieldsCache := by
            intro hf
            have hf1 : c1.fieldsCache ≠ [] := by rw [hfr.1]; exact hf
            rw [GetFields_cached g hf1] at hfl
            rw [← (Prod.mk.inj hfl).2, hfr.1]
          cases r2 with
          | error err =>
            rw [GetEnums_step_error2 g he hev hfl]
            exact ⟨hc2, hf2⟩
          | ok flds =>
            rw [GetEnums_step_ok g he hev hfl]
            exact ⟨hc2, hf2⟩
  · rw [GetEnums_cached g he]
    exact ⟨fun _ => rfl, fun _ => rfl⟩

/-- What `GetEnums` returns with success is what `enumsCache` then holds. -/
theorem GetEnums_stores (g : File n k) (c : Caches n k) {ens : List (Fin k)}
    (hen : (GetEnums h g c).1 = .ok ens) : (GetEnums h g c).2.enumsCache = ens := by
  by_cases he : c.enumsCache = []
  · cases hev : GetEvents h g c with
    | mk r c1 =>
      cases r with
      | error err =>
        rw [GetEnums_step_error g he hev] at hen
        cases hen
      | ok evs =>
        cases hfl : GetFields h g c1 with
        | mk r2 c2 =>
          cases r2 with
          | error err =>
            rw [GetEnums_step_error2 g he hev hfl] at hen
            cases hen
          | ok flds =>
            rw [GetEnums_step_ok g he hev hfl] at hen ⊢
            exact Result.ok.inj hen
  · rw [GetEnums_cached g he] at hen ⊢
    exact Result.ok.inj hen

/-- No call of any accessor on any file changes a cache that is not empty. -/
theorem call_frame (a : Accessor) (g : File n k) (c : Caches n k) :
    (c.eventsCache ≠ [] → (call h a g c).2.eventsCache = c.eventsCache) ∧
    (c.fieldsCache ≠ [] → (call h a g c).2.fieldsCache = c.fieldsCache) ∧
    (c.enumsCache ≠ [] → (call h a g c).2.enumsCache = c.enumsCache) := by
  cases a with
  | events =>
    refine ⟨fun hc => ?_, fun _ => (GetEvents_frame g c).1, fun _ => (GetEvents_frame g c).2⟩
    show (GetEvents h g c).2.eventsCache = c.eventsCache
    rw [GetEvents_cached g hc]
  | fields =>
    refine ⟨(GetFields_frame g c).2, fun hc => ?_, fun _ => (GetFields_frame g c).1⟩
    show (GetFields h g c).2.fieldsCache = c.fieldsCache
    rw [GetFields_cached g hc]
  | enums =>
    refine ⟨(GetEnums_frame g c).1, (GetEnums_frame g c).2, fun hc => ?_⟩
    show (GetEnums h g c).2.enumsCache = c.enumsCache
    rw [GetEnums_cached g hc]

/-- No sequence of calls changes a cache that is not empty. -/
theorem runCalls_frame (calls : List (Accessor × File n k)) :
    ∀ c : Caches n k,
      (c.eventsCache ≠ [] → (runCalls h calls c).eventsCache = c.eventsCache) ∧
      (c.fieldsCache ≠ [] → (runCalls h calls c).fieldsCache = c.fieldsCache) ∧
      (c.enumsCache ≠ [] → (runCalls h calls c).enumsCache = c.enumsCache) := by
  induction calls with
  | nil => intro c; exact ⟨fun _ => rfl, fun _ => rfl, fun _ => rfl⟩
  | cons p rest ih =>
    intro c
    obtain ⟨a, g⟩ := p
    have h1 := call_frame (h := h) a g c
    have h2 := ih (call h a g c).2
    refine ⟨fun hc => ?_, fun hc => ?_, fun hc => ?_⟩
    · show (runCalls h rest (call h a g c).2).eventsCache = c.eventsCache
      rw [h2.1 (by rw [h1.1 hc]; exact hc), h1.1 hc]
    · show (runCalls h rest (call h a g c).2).fieldsCache = c.fieldsCache
      rw [h2.2.1 (by rw [h1.2.1 hc]; exact hc), h1.2.1 hc]
    · show (runCalls h rest (call h a g c).2).enumsCache = c.enumsCache
      rw [h2.2.2 (by rw [h1.2.2 hc]; exact hc), h1.2.2 hc]

/-! ### Calls on one file from empty caches -/

theorem settled_empty (f : File n k) : Settled h f (Caches.empty n k) :=
  ⟨Or.inl rfl, Or.inl rfl, Or.inl rfl⟩

/-- In a settled state `GetEvents` returns what it returns from empty caches and
stores it. -/
theorem GetEvents_settled (f : File n k) {c : Caches n k}
    (hs : c.eventsCache = [] ∨ (GetEvents h f (Caches.empty n k)).1 = .ok c.eventsCache) :
    GetEvents h f c = ((GetEvents h f (Caches.empty n k)).1,
      c.withEvents (GetEvents h f (Caches.empty n k)).1) := by
  by_cases hc : c.eventsCache = []
  · exact GetEvents_fresh f hc
  · rcases hs with hs | hs
    · exact absurd hs hc
    · rw [GetEvents_cached f hc, hs]
      rfl

theorem settled_withEvents (f : File n k) {c : Caches n k} (hs : Settled h f c) :
    Settled h f (c.withEvents (GetEvents h f (Caches.empty n k)).1) := by
  cases hr : (GetEvents h f (Caches.empty n k)).1 with
  | error err => exact hs
  | ok evs => exact ⟨Or.inr hr, hs.2.1, hs.2.2⟩

/-- In a settled state `GetFields` returns what it returns from empty caches
and leaves a settled state. -/
theorem GetFields_settled (f : File n k) {c : Caches n k} (hs : Settled h f c) :
    (GetFields h f c).1 = (GetFields h f (Caches.empty n k)).1 ∧
    Settled h f (GetFields h f c).2 := by
  by_cases hf : c.fieldsCache = []
  · have hev := GetEvents_settled f hs.1
    have hs1 := settled_withEvents f hs
    cases hr : (GetEvents h f (Caches.empty n k)).1 with
    | error err =>
      rw [hr] at hev hs1
      rw [GetFields_step_error f hf hev, GetFields_error (c := Caches.empty n k) rfl hr]
      exact ⟨rfl, hs1⟩
    | ok evs =>
      rw [hr] at hev hs1
      rw [GetFields_step_ok f hf hev, GetFields_of_events (c := Caches.empty n k) rfl rfl hr]
      refine ⟨rfl, hs1.1, Or.inr ?_, hs1.2.2⟩
      rw [GetFields_of_events (c := Caches.empty n k) rfl rfl hr]
  · rw [GetFields_cached f hf]
    rcases hs.2.1 with h1 | h1
    · exact absurd h1 hf
    · exact ⟨h1.symm, hs⟩

/-- In a settled state `GetEnums` returns what it returns from empty caches and
leaves a settled state. -/
theorem GetEnums_settled (f : File n k) {c : Caches n k} (hs : Settled h f c) :
    (GetEnums h f c).1 = (GetEnums h f (Caches.empty n k)).1 ∧
    Settled h f (GetEnums h f c).2 := by
  by_cases he : c.enumsCache = []
  · have hev := GetEvents_settled f hs.1
    have hs1 := settled_withEvents f hs
    cases hr : (GetEvents h f (Caches.empty n k)).1 with
    | error err =>
      rw [hr] at hev hs1
      rw [GetEnums_step_error f he hev, GetEnums_error (c := Caches.empty n k) rfl hr]
      exact ⟨rfl, hs1⟩
    | ok evs =>
      rw [hr] at hev hs1
      obtain ⟨h1, h2⟩ := GetFields_settled f hs1
      rw [GetFields_of_events (c := Caches.empty n k) rfl rfl hr] at h1
      have hfl : GetFields h f (c.withEvents (.ok evs)) =
          (.ok (messagesNamed h f (validFields h evs)),
            (GetFields h f (c.withEvents (.ok evs))).2) := Prod.ext h1 rfl
      rw [GetEnums_step_ok f he hev hfl, GetEnums_of_events (c := Caches.empty n k) rfl rfl rfl hr]
      refine ⟨rfl, h2.1, h2.2.1, Or.inr ?_⟩
      rw [GetEnums_of_events (c := Caches.empty n k) rfl rfl rfl hr]
  · rw [GetEnums_cached f he]
    rcases hs.2.2 with h1 | h1
    · exact absurd h1 he
    · exact ⟨h1.symm, hs⟩

/-- In a settled state every accessor returns what it returns from empty caches
and leaves a settled state. -/
theorem call_settled (f : File n k) {c : Caches n k} (hs : Settled h f c) (a : Accessor) :
    (call h a f c).1 = (call h a f (Caches.empty n k)).1 ∧ Settled h f (call h a f c).2 := by
  cases a with
  | events =>
    have hev := GetEvents_settled f hs.1
    refine ⟨?_, ?_⟩
    · show Answer.messages (GetEvents h f c).1 = Answer.messages _
      rw [hev]
    · show Settled h f (GetEvents h f c).2
      rw [hev]
      exact settled_withEvents f hs
  | fields =>
    obtain ⟨h1, h2⟩ := GetFields_settled f hs
    exact ⟨congrArg Answer.messages h1, h2⟩
  | enums =>
    obtain ⟨h1, h2⟩ := GetEnums_settled f hs
    exact ⟨congrArg Answer.enums h1, h2⟩

end anycache

/-! ## Determinism, memoization and upstream calls -/

/-- Every call in a sequence of calls on one file that starts in a settled
state returns what its accessor returns from empty caches. -/
theorem answers_settled {n k : Nat} {h : Heap n k} (f : File n k) (calls : List Accessor) :
    ∀ c : Caches n k, Settled h f c →
      ∀ p ∈ answers h (calls.map (fun a => (a, f))) c,
        p.2 = (call h p.1 f (Caches.empty n k)).1 := by
  induction calls with
  | nil =>
    intro c _ p hp
    exact absurd hp (List.not_mem_nil _)
  | cons a rest ih =>
    intro c hs p hp
    obtain ⟨h1, h2⟩ := call_settled f hs a
    rcases List.mem_cons.mp hp with rfl | hp
    · exact h1
    · exact ih _ h2 p hp

/-- C11: for a fixed file `f`, in any sequence of calls of `GetEvents(f)`,
`GetFields(f)` and `GetEnums(f)` that starts from empty caches, every call
returns what its accessor returns when called first from empty caches; so any
two calls of the same accessor return the identical result, before and after
the caches are populated. -/
theorem determinism {n k : Nat} (h : Heap n k) (f : File n k) (calls : List Accessor) :
    (∀ p ∈ answers h (calls.map (fun a => (a, f))) (Caches.empty n k),
      p.2 = (call h p.1 f (Caches.empty n k)).1) ∧
    (∀ p ∈ answers h (calls.map (fun a => (a, f))) (Caches.empty n k),
      ∀ q ∈ answers h (calls.map (fun a => (a, f))) (Caches.empty n k),
        p.1 = q.1 → p.2 = q.2) := by
  have key := answers_settled (h := h) f calls (Caches.empty n k) (settled_empty f)
  refine ⟨key, fun p hp q hq hpq => ?_⟩
  rw [key p hp, key q hq, hpq]

/-- C11 at the scenario of the specification: in the sequence of calls enums,
events, fields, events, enums, fields the two calls of `GetEvents` return
`[Exec, Exit]`, as a first call of `GetEvents` does. -/
theorem determinism_witness :
    answers scenarioHeap
      ([Accessor.enums, .events, .fields, .events, .enums, .fields].map
        (fun a => (a, scenarioFile))) (Caches.empty 5 1) =
      [(.enums, .enums (.ok [0])), (.events, .messages (.ok [1, 2])),
       (.fields, .messages (.ok [3, 4])), (.events, .messages (.ok [1, 2])),
       (.enums, .enums (.ok [0])), (.fields, .messages (.ok [3, 4]))] ∧
    (Answer.messages (.ok [1, 2]) : Answer 5 1) =
      (call scenarioHeap .events scenarioFile (Caches.empty 5 1)).1 :=
  ⟨by decide,
    (determinism scenarioHeap scenarioFile
      [Accessor.enums, .events, .fields, .events, .enums, .fields]).1
      (.events, .messages (.ok [1, 2])) (by decide)⟩

/-- C12, as stated, fails: `GetEvents(memoFile)` succeeds from empty caches
with the empty list, which leaves `eventsCache` empty; the next call, with
`memoOtherFile`, scans its argument, returns `[Exec]` instead of the stored
empty list, and changes the cache. -/
theorem memoization_counterexample :
    GetEvents memoHeap memoFile (Caches.empty 3 0) = (.ok [], Caches.empty 3 0) ∧
    GetEvents memoHeap memoOtherFile (GetEvents memoHeap memoFile (Caches.empty 3 0)).2 =
      (.ok [2], ⟨[2], [], []⟩) := by
  decide

/-- C12, amended: once a call of `GetEvents(f)` (resp. `GetFields(f)`,
`GetEnums(f)`), from any cache state, has succeeded with a list that is not
empty, then after any further sequence of calls of the three accessors on any
files, a call of that accessor with any file `g` returns the stored list and
leaves all caches unchanged. -/
theorem memoization_nonempty {n k : Nat} (h : Heap n k) (f g : File n k) (c : Caches n k)
    (calls : List (Accessor × File n k)) :
    (∀ evs, (GetEvents h f c).1 = .ok evs → evs ≠ [] →
      GetEvents h g (runCalls h calls (GetEvents h f c).2) =
        (.ok evs, runCalls h calls (GetEvents h f c).2)) ∧
    (∀ flds, (GetFields h f c).1 = .ok flds → flds ≠ [] →
      GetFields h g (runCalls h calls (GetFields h f c).2) =
        (.ok flds, runCalls h calls (GetFields h f c).2)) ∧
    (∀ ens, (GetEnums h f c).1 = .ok ens → ens ≠ [] →
      GetEnums h g (runCalls h calls (GetEnums h f c).2) =
        (.ok ens, runCalls h calls (GetEnums h f c).2)) := by
  refine ⟨fun evs hev hne => ?_, fun flds hfl hne => ?_, fun ens hen hne => ?_⟩
  · have h1 := GetEvents_stores f c hev
    have h2 := (runCalls_frame (h := h) calls (GetEvents h f c).2).1 (by rw [h1]; exact hne)
    rw [GetEvents_cached g (by rw [h2, h1]; exact hne), h2, h1]
  · have h1 := GetFields_stores f c hfl
    have h2 := (runCalls_frame (h := h) calls (GetFields h f c).2).2.1 (by rw [h1]; exact hne)
    rw [GetFields_cached g (by rw [h2, h1]; exact hne), h2, h1]
  · have h1 := GetEnums_stores f c hen
    have h2 := (runCalls_frame (h := h) calls (GetEnums h f c).2).2.2 (by rw [h1]; exact hne)
    rw [GetEnums_cached g (by rw [h2, h1]; exact hne), h2, h1]

/-- C12, amended, in `memoHeap`: after `GetEvents(memoOtherFile)` has returned
`[Exec]` and `GetFields` and `GetEnums` have been called, `GetEvents(memoFile)`
returns the stored `[Exec]` although the event union of `memoFile` has no
variants. -/
theorem memoization_nonempty_witness :
    GetEvents memoHeap memoFile
      (runCalls memoHeap [(.fields, memoFile), (.enums, memoOtherFile)]
        (GetEvents memoHeap memoOtherFile (Caches.empty 3 0)).2) =
      (.ok [2], runCalls memoHeap [(.fields, memoFile), (.enums, memoOtherFile)]
        (GetEvents memoHeap memoOtherFile (Caches.empty 3 0)).2) :=
  (memoization_nonempty memoHeap memoOtherFile memoFile (Caches.empty 3 0)
    [(.fields, memoFile), (.enums, memoOtherFile)]).1 [2] (by decide) (by decide)

/-- The three accessors from empty caches when `GetEvents` fails. -/
theorem accessors_of_error {n k : Nat} {h : Heap n k} {f : File n k} {err : String}
    (hr : (GetEvents h f (Caches.empty n k)).1 = .error err) :
    GetEvents h f (Caches.empty n k) = (.error err, Caches.empty n k) ∧
    GetFields h f (Caches.empty n k) = (.error err, Caches.empty n k) ∧
    GetEnums h f (Caches.empty n k) = (.error err, Caches.empty n k) := by
  have hev : GetEvents h f (Caches.empty n k) = (.error err, Caches.empty n k) := by
    have := GetEvents_fresh (h := h) f (c := Caches.empty n k) rfl
    rw [hr] at this
    exact this
  exact ⟨hev, GetFields_step_error f rfl hev, GetEnums_step_error f rfl hev⟩

/-- The three accessors from empty caches, and called in the order events,
fields, enums, when `GetEvents` succeeds. -/
theorem accessors_of_ok {n k : Nat} {h : Heap n k} {f : File n k} {evs : List (Fin n)}
    (hr : (GetEvents h f (Caches.empty n k)).1 = .ok evs) :
    GetEvents h f (Caches.empty n k) = (.ok evs, ⟨evs, [], []⟩) ∧
    GetFields h f (Caches.empty n k) =
      (.ok (messagesNamed h f (validFields h evs)),
        ⟨evs, messagesNamed h f (validFields h evs), []⟩) ∧
    GetEnums h f (Caches.empty n k) =
      (.ok (enumsNamed h f (validEnumNames h (evs ++ messagesNamed h f (validFields h evs)))),
        ⟨evs, messagesNamed h f (validFields h evs),
          enumsNamed h f (validEnumNames h (evs ++ messagesNamed h f (validFields h evs)))⟩) ∧
    GetFields h f ⟨evs, [], []⟩ =
      (.ok (messagesNamed h f (validFields h evs)),
        ⟨evs, messagesNamed h f (validFields h evs), []⟩) ∧
    GetEnums h f ⟨evs, messagesNamed h f (validFields h evs), []⟩ =
      (.ok (enumsNamed h f (validEnumNames h (evs ++ messagesNamed h f (validFields h evs)))),
        ⟨evs, messagesNamed h f (validFields h evs),
          enumsNamed h f (validEnumNames h (evs ++ messagesNamed h f (validFields h evs)))⟩) := by
  have hev : GetEvents h f (Caches.empty n k) = (.ok evs, ⟨evs, [], []⟩) := by
    have := GetEvents_fresh (h := h) f (c := Caches.empty n k) rfl
    rw [hr] at this
    exact this
  have hev1 : GetEvents h f ⟨evs, [], []⟩ = (.ok evs, ⟨evs, [], []⟩) := by
    have := GetEvents_settled (h := h) f (c := ⟨evs, [], []⟩) (Or.inr hr)
    rw [hr] at this
    exact this
  have hev2 : GetEvents h f ⟨evs, messagesNamed h f (validFields h evs), []⟩ =
      (.ok evs, ⟨evs, messagesNamed h f (validFields h evs), []⟩) := by
    have := GetEvents_settled (h := h) f
      (c := ⟨evs, messagesNamed h f (validFields h evs), []⟩) (Or.inr hr)
    rw [hr] at this
    exact this
  have hfl2 : GetFields h f ⟨evs, messagesNamed h f (validFields h evs), []⟩ =
      (.ok (messagesNamed h f (validFields h evs)),
        ⟨evs, messagesNamed h f (validFields h evs), []⟩) := by
    by_cases hf : messagesNamed h f (validFields h evs) = []
    · have := GetFields_step_ok (h := h) f
        (c := ⟨evs, messagesNamed h f (validFields h evs), []⟩) hf hev2
      exact this
    · exact GetFields_cached (h := h) f
        (c := ⟨evs, messagesNamed h f (validFields h evs), []⟩) hf
  exact ⟨hev, GetFields_step_ok f rfl hev, GetEnums_of_events rfl rfl rfl hr,
    GetFields_step_ok f rfl hev1, GetEnums_step_ok f rfl hev2 hfl2⟩

/-- C18: starting from empty caches, `GetFields(f)` and `GetEnums(f)` return
an error exactly when `GetEvents(f)` does, and then the same error; called
without the upstream accessors having been called first, they return the same
results and leave the same caches as when the accessors are called in the
order events, fields, enums; on success the upstream caches they populate hold
the upstream accessors' results; and once the `GetEvents` call has succeeded,
the `GetFields` call that follows it succeeds. -/
theorem upstream_propagation {n k : Nat} (h : Heap n k) (f : File n k) :
    (∀ err, (GetFields h f (Caches.empty n k)).1 = .error err ↔
      (GetEvents h f (Caches.empty n k)).1 = .error err) ∧
    (∀ err, (GetEnums h f (Caches.empty n k)).1 = .error err ↔
      (GetEvents h f (Caches.empty n k)).1 = .error err) ∧
    GetFields h f (GetEvents h f (Caches.empty n k)).2 = GetFields h f (Caches.empty n k) ∧
    GetEnums h f (GetFields h f (GetEvents h f (Caches.empty n k)).2).2 =
      GetEnums h f (Caches.empty n k) ∧
    (∀ evs, (GetEvents h f (Caches.empty n k)).1 = .ok evs →
      (GetFields h f (Caches.empty n k)).2.eventsCache = evs ∧
      (GetEnums h f (Caches.empty n k)).2.eventsCache = evs) ∧
    (∀ flds, (GetFields h f (Caches.empty n k)).1 = .ok flds →
      (GetEnums h f (Caches.empty n k)).2.fieldsCache = flds) ∧
    (∀ evs c1, GetEvents h f (Caches.empty n k) = (.ok evs, c1) →
      ∃ flds c2, GetFields h f c1 = (.ok flds, c2)) := by
  cases hr : (GetEvents h f (Caches.empty n k)).1 with
  | error err0 =>
    obtain ⟨h1, h2, h3⟩ := accessors_of_error hr
    refine ⟨fun err => ?_, fun err => ?_, ?_, ?_, ?_, ?_, ?_⟩
    · rw [h2]
    · rw [h3]
      exact ⟨fun h0 => (by rw [Result.error.inj h0]), fun h0 => (by rw [Result.error.inj h0])⟩
    · rw [h1, h2]
    · rw [h1, h2, h3]
    · intro evs hevs
      cases hevs
    · intro flds hfl
      rw [h2] at hfl
      cases hfl
    · intro evs c1 hev
      rw [h1] at hev
      cases (Prod.mk.inj hev).1
  | ok evs0 =>
    obtain ⟨h1, h2, h3, h4, h5⟩ := accessors_of_ok hr
    refine ⟨fun err => ?_, fun err => ?_, ?_, ?_, ?_, ?_, ?_⟩
    · rw [h2]
      exact ⟨fun h0 => (by cases h0), fun h0 => (by cases h0)⟩
    · rw [h3]
      exact ⟨fun h0 => (by cases h0), fun h0 => (by cases h0)⟩
    · rw [h1, h4, h2]
    · rw [h1, h4, h5, h3]
    · intro evs hevs
      obtain rfl := Result.ok.inj hevs
      rw [h2, h3]
      exact ⟨rfl, rfl⟩
    · intro flds hfl
      rw [h2] at hfl
      obtain rfl := Result.ok.inj hfl
      rw [h3]
    · intro evs c1 hev
      rw [h1] at hev
      obtain ⟨e1, e2⟩ := Prod.mk.inj hev
      obtain rfl := Result.ok.inj e1
      subst e2
      exact ⟨_, _, h4⟩

/-- C18 at a file without entry message: `GetFields` and `GetEnums` fail with
the error of `GetEvents`. -/
theorem upstream_propagation_witness :
    (GetFields noEntryHeap noEntryFile (Caches.empty 1 0)).1 =
      .error "Unable to find GetEventsResponse message" ∧
    (GetEnums noEntryHeap noEntryFile (Caches.empty 1 0)).1 =
      .error "Unable to find GetEventsResponse message" :=
  ⟨((upstream_propagation noEntryHeap noEntryFile).1 _).mpr (by decide),
    ((upstream_propagation noEntryHeap noEntryFile).2.1 _).mpr (by decide)⟩

/-! ## Termination and the seen map -/

/-- The loop returns the same with a recursive call that returns more often. -/
theorem fieldsLoop_mono {n k : Nat} (h : Heap n k)
    {d1 d2 : Fin n → List String → Option (Walk n k)}
    (hd : ∀ r seen res, d1 r seen = some res → d2 r seen = some res) :
    ∀ (start : List (Field n k)) (seen : List String) (res : Walk n k),
      fieldsLoop h d1 start seen = some res → fieldsLoop h d2 start seen = some res := by
  intro start
  induction start with
  | nil =>
    intro seen res hres
    rw [fieldsLoop] at hres ⊢
    exact hres
  | cons field rest ih =>
    intro seen res hres
    cases hm : field.message with
    | none =>
      rw [fieldsLoop_cons_none h hm] at hres ⊢
      exact ih seen res hres
    | some r =>
      by_cases hs : (h.msg r).goName ∈ seen
      · rw [fieldsLoop_cons_seen h hm rest hs] at hres ⊢
        exact ih seen res hres
      · obtain ⟨sub, seen1, more, seen2, e1, e2, e3⟩ :=
          (fieldsLoop_cons_new h hm rest hs res).mp hres
        exact (fieldsLoop_cons_new h hm rest hs res).mpr
          ⟨sub, seen1, more, seen2, hd _ _ _ e1, ih _ _ e2, e3⟩

/-- A walk that returns within some depth bound returns the same within the
next one. -/
theorem getFieldsForMessage_fuel_succ {n k : Nat} (h : Heap n k) :
    ∀ (fuel : Nat) (msg : Fin n) (seen : List String) (res : Walk n k),
      __getFieldsForMessage h fuel msg seen = some res →
        __getFieldsForMessage h (fuel + 1) msg seen = some res := by
  intro fuel
  induction fuel with
  | zero =>
    intro msg seen res hres
    rw [__getFieldsForMessage] at hres
    cases hres
  | succ fuel ih =>
    intro msg seen res hres
    rw [__getFieldsForMessage] at hres ⊢
    exact fieldsLoop_mono h (fun r s res0 h0 => ih r s res0 h0) _ _ _ hres

/-- A walk that returns within some depth bound returns the same within every
larger one. -/
theorem getFieldsForMessage_fuel_le {n k : Nat} (h : Heap n k) {fuel fuel1 : Nat}
    (hle : fuel ≤ fuel1) (msg : Fin n) (seen : List String) (res : Walk n k)
    (hres : __getFieldsForMessage h fuel msg seen = some res) :
    __getFieldsForMessage h fuel1 msg seen = some res := by
  induction hle with
  | refl => exact hres
  | step _ ih => exact getFieldsForMessage_fuel_succ h _ _ _ _ ih

/-- C13: on every finite store, cyclic or not, the walk of
`getFieldsForMessage` returns on every root message, with the fields that
`getFieldsForMessage` gives (so `GetFields` returns); a walk from any `seen`
map returns as soon as the depth bound exceeds the number of Go type names not
yet seen, and returns the same for every larger bound; that number is at most
the number `n` of messages; and every recursive call, which adds a type name
not yet seen to the map, strictly lowers it. -/
theorem walk_terminates {n k : Nat} (h : Heap n k) (msg : Fin n) :
    (∃ seen, __getFieldsForMessage h (n + 1) msg [] = some (getFieldsForMessage h msg, seen)) ∧
    (∀ fuel seen, (unseen h seen).card < fuel →
      ∃ res, __getFieldsForMessage h fuel msg seen = some res ∧
        ∀ fuel1, fuel ≤ fuel1 → __getFieldsForMessage h fuel1 msg seen = some res) ∧
    (∀ seen, (unseen h seen).card ≤ n) ∧
    (∀ seen r, (h.msg r).goName ∉ seen →
      (unseen h ((h.msg r).goName :: seen)).card < (unseen h seen).card) := by
  refine ⟨getFieldsForMessage_run h msg, fun fuel seen hc => ?_, unseen_card_le h,
    fun seen r hs => unseen_cons_lt h r hs⟩
  obtain ⟨res, hres⟩ := getFieldsForMessage_fuel h fuel msg seen hc
  exact ⟨res, hres, fun fuel1 hle => getFieldsForMessage_fuel_le h hle msg seen res hres⟩

/-- C13 at the cycle `A → B → A`: the walk from `A` returns the fields `b` and
`a` within depth 4, and within every larger depth. -/
theorem walk_terminates_witness :
    getFieldsForMessage cycleHeap 1 = [Field.ofMessage "A_B" 2, Field.ofMessage "B_A" 1] ∧
    ∃ res, __getFieldsForMessage cycleHeap 4 1 [] = some res ∧
      ∀ fuel1, 4 ≤ fuel1 → __getFieldsForMessage cycleHeap fuel1 1 [] = some res :=
  ⟨by decide,
    (walk_terminates cycleHeap 1).2.1 4 []
      (Nat.lt_succ_of_le ((walk_terminates cycleHeap 1).2.2.1 []))⟩

/-- C14: in the scenario of the specification the accessors, called from
empty caches, return events `[Exec, Exit]`, fields `[Process, Pod]` and enums
`[PodStatus]`; called in this order they return the same. -/
theorem scenario_closures :
    (GetEvents scenarioHeap scenarioFile (Caches.empty 5 1)).1 = .ok [1, 2] ∧
    (GetFields scenarioHeap scenarioFile (Caches.empty 5 1)).1 = .ok [3, 4] ∧
    (GetEnums scenarioHeap scenarioFile (Caches.empty 5 1)).1 = .ok [0] ∧
    answers scenarioHeap
      [(.events, scenarioFile), (.fields, scenarioFile), (.enums, scenarioFile)]
      (Caches.empty 5 1) =
      [(.events, .messages (.ok [1, 2])), (.fields, .messages (.ok [3, 4])),
       (.enums, .enums (.ok [0]))] ∧
    [1, 2].map (fun m => (scenarioHeap.msg m).descName) = ["Exec", "Exit"] ∧
    [3, 4].map (fun m => (scenarioHeap.msg m).descName) = ["Process", "Pod"] ∧
    [0].map (fun e => (scenarioHeap.enum e).descName) = ["PodStatus"] := by
  decide

/-- The fields of a list whose type names have no duplicates reference
pairwise different type names. -/
theorem pairwise_of_typeNames_nodup {n k : Nat} (h : Heap n k) :
    ∀ fields : List (Field n k), (typeNames h fields).Nodup →
      fields.Pairwise (fun a b => ∀ ra rb, a.message = some ra → b.message = some rb →
        (h.msg ra).goName ≠ (h.msg rb).goName) := by
  intro fields
  induction fields with
  | nil => intro _; exact List.Pairwise.nil
  | cons a rest ih =>
    intro hnd
    cases hm : a.message with
    | none =>
      have e : typeNames h (a :: rest) = typeNames h rest := by
        unfold typeNames
        rw [List.filterMap_cons, hm]
      rw [e] at hnd
      refine List.Pairwise.cons ?_ (ih hnd)
      intro b _ ra rb hra
      rw [hm] at hra
      cases hra
    | some r =>
      rw [typeNames_cons_some h hm] at hnd
      obtain ⟨h1, h2⟩ := List.nodup_cons.mp hnd
      refine List.Pairwise.cons ?_ (ih h2)
      intro b hb ra rb hra hrb heq
      rw [hm] at hra
      obtain rfl := Option.some.inj hra
      exact h1 ((mem_typeNames h).mpr ⟨b, hb, rb, hrb, heq.symm⟩)

/-- C19: for every root message the list returned by `getFieldsForMessage`
contains only message-typed fields, and no two of them reference the same
message type name: a type name is recorded, and the message of the field that
recorded it expanded, once within one root's walk. -/
theorem seen_by_type_name {n k : Nat} (h : Heap n k) (msg : Fin n) :
    (∀ field ∈ getFieldsForMessage h msg, ∃ r, field.message = some r) ∧
    (typeNames h (getFieldsForMessage h msg)).Nodup ∧
    (typeNames h (getFieldsForMessage h msg)).length = (getFieldsForMessage h msg).length ∧
    (getFieldsForMessage h msg).Pairwise (fun a b => ∀ ra rb,
      a.message = some ra → b.message = some rb → (h.msg ra).goName ≠ (h.msg rb).goName) := by
  obtain ⟨seen, p⟩ := getFieldsForMessage_walk h msg
  have hall : ∀ field ∈ getFieldsForMessage h msg, ∃ r, field.message = some r := by
    intro field hf
    obtain ⟨r, hr, _⟩ := p.recorded field hf
    exact ⟨r, hr⟩
  refine ⟨hall, p.nodup, ?_, pairwise_of_typeNames_nodup h _ p.nodup⟩
  have hlen : ∀ l : List (Field n k), (∀ field ∈ l, ∃ r, field.message = some r) →
      (typeNames h l).length = l.length := by
    intro l
    induction l with
    | nil => intro _; rfl
    | cons a rest ih =>
      intro hl
      obtain ⟨r, hr⟩ := hl a (List.mem_cons_self _ _)
      rw [typeNames_cons_some h hr, List.length_cons, List.length_cons,
        ih (fun x hx => hl x (List.mem_cons_of_mem _ hx))]
  exact hlen _ hall

/-- C19 in a store where the root `Exec` has the two fields `process` and
`parent` of the same type `Process`: only the first of them is returned. -/
theorem seen_by_type_name_witness :
    getFieldsForMessage twinHeap 0 = [Field.ofMessage "Exec_Process" 1] ∧
    ∃ r, (Field.ofMessage "Exec_Process" 1 : Field 2 0).message = some r :=
  ⟨by decide,
    (seen_by_type_name twinHeap 0).1 (Field.ofMessage "Exec_Process" 1) (by decide)⟩

/-! ## Events and the variants of the event union -/

/-- C15, as stated, fails: in `variantFile` the only variant of the event union
has the Go name `GetEventsResponse_Exec` and the payload type `ProcessExec`;
`GetEvents` returns the declared message `Exec`, which is the payload of no
variant, and does not return the declared payload type `ProcessExec`. -/
theorem events_payload_counterexample :
    (GetEvents variantHeap variantFile (Caches.empty 3 0)).1 = .ok [2] ∧
    IsEntry variantHeap variantFile 0 ∧
    IsEventOneof variantHeap 0 ⟨"event", [Field.ofMessage "GetEventsResponse_Exec" 1]⟩ ∧
    (∀ v ∈ [(Field.ofMessage "GetEventsResponse_Exec" 1 : Field 3 0)], v.message ≠ some 2) ∧
    (Field.ofMessage "GetEventsResponse_Exec" 1 : Field 3 0).message = some 1 ∧
    (1 : Fin 3) ∈ variantFile.messages ∧
    (1 : Fin 3) ∉ [(2 : Fin 3)] :=
  ⟨by decide, ⟨[], [1, 2], rfl, by decide, by decide⟩, ⟨[], [], rfl, by decide, by decide⟩,
    by decide, rfl, by decide, by decide⟩

/-- C15, amended: on an empty events cache, with `m` the entry message of `f`
and `o` its event union, every message in the result of `GetEvents(f)` is
declared in `f.Messages` under the name that `strings.TrimPrefix` leaves of the
Go name of some variant of `o`; every payload type of a variant that is
declared in `f.Messages` under the name left of that variant's Go name is in
the result; and when every variant has a payload type declared under that name,
and a declared message with the declared name of a payload type is that payload
type, every message in the result is the payload type of some variant. -/
theorem events_payload_by_name {n k : Nat} (h : Heap n k) (f : File n k) (c : Caches n k)
    (hc : c.eventsCache = []) (m : Fin n) (o : Oneof n k)
    (hm : IsEntry h f m) (ho : IsEventOneof h m o) (evs : List (Fin n))
    (hev : (GetEvents h f c).1 = .ok evs) :
    (∀ x ∈ evs, x ∈ f.messages ∧ ∃ v ∈ o.fields,
      (h.msg x).descName = TrimPrefix v.goName "GetEventsResponse_") ∧
    (∀ v ∈ o.fields, ∀ p, v.message = some p → p ∈ f.messages →
      (h.msg p).descName = TrimPrefix v.goName "GetEventsResponse_" → p ∈ evs) ∧
    ((∀ v ∈ o.fields, ∃ p, v.message = some p ∧
        (h.msg p).descName = TrimPrefix v.goName "GetEventsResponse_") →
      (∀ a ∈ f.messages, ∀ v ∈ o.fields, ∀ p, v.message = some p →
        (h.msg a).descName = (h.msg p).descName → a = p) →
      ∀ x ∈ evs, ∃ v ∈ o.fields, v.message = some x) := by
  rw [GetEvents_of_anchors hc hm ho] at hev
  obtain rfl := Result.ok.inj hev
  have key : ∀ x ∈ messagesNamed h f (variantNames o), x ∈ f.messages ∧ ∃ v ∈ o.fields,
      (h.msg x).descName = TrimPrefix v.goName "GetEventsResponse_" := by
    intro x hx
    obtain ⟨hxf, hxn⟩ := mem_messagesNamed.mp hx
    obtain ⟨v, hv, e⟩ := List.mem_map.mp hxn
    exact ⟨hxf, v, hv, e.symm⟩
  refine ⟨key, ?_, ?_⟩
  · intro v hv p _ hp hname
    exact mem_messagesNamed.mpr ⟨hp, List.mem_map.mpr ⟨v, hv, hname.symm⟩⟩
  · intro hconv huniq x hx
    obtain ⟨hxf, v, hv, hname⟩ := key x hx
    obtain ⟨p, hp, hpn⟩ := hconv v hv
    obtain rfl := huniq x hxf v hv p hp (hname.trans hpn.symm)
    exact ⟨v, hv, hp⟩

/-- C15, amended, at the scenario of the specification: `Exit` is in the
result and is the payload type of a variant. -/
theorem events_payload_by_name_witness :
    ∃ v ∈ [(Field.ofMessage "GetEventsResponse_Exec" 1 : Field 5 1),
        Field.ofMessage "GetEventsResponse_Exit" 2], v.message = some (2 : Fin 5) :=
  (events_payload_by_name scenarioHeap scenarioFile (Caches.empty 5 1) rfl 0
    ⟨"event", [Field.ofMessage "GetEventsResponse_Exec" 1,
      Field.ofMessage "GetEventsResponse_Exit" 2]⟩
    ⟨[], [1, 2, 3, 4], rfl, by decide, by decide⟩
    ⟨[], [], rfl, by decide, by decide⟩ [1, 2] (by decide)).2.2
    (by decide)
    (fun a _ _ _ p _ hap =>
      (by decide : ∀ a p : Fin 5,
        (scenarioHeap.msg a).descName = (scenarioHeap.msg p).descName → a = p) a p hap)
    2 (by decide)

/-- C16: two schemas with the same declared messages under the same declared
names, whose entry message is `m` in both and whose event unions list the same
variant fields in any two orders, get the same result from `GetEvents` on
empty caches. -/
theorem variant_order_independence {n k : Nat} (h h2 : Heap n k) (f : File n k)
    (m : Fin n) (o o2 : Oneof n k)
    (hnames : ∀ x, (h.msg x).descName = (h2.msg x).descName)
    (hm : IsEntry h f m) (hm2 : IsEntry h2 f m)
    (ho : IsEventOneof h m o) (ho2 : IsEventOneof h2 m o2)
    (hperm : o.fields.Perm o2.fields) :
    (GetEvents h f (Caches.empty n k)).1 = (GetEvents h2 f (Caches.empty n k)).1 := by
  rw [GetEvents_of_anchors (c := Caches.empty n k) rfl hm ho,
    GetEvents_of_anchors (c := Caches.empty n k) rfl hm2 ho2]
  show Result.ok (messagesNamed h f (variantNames o)) =
    Result.ok (messagesNamed h2 f (variantNames o2))
  congr 1
  unfold messagesNamed
  apply List.filter_congr
  intro x _
  rw [hnames x]
  have hp : (variantNames o).Perm (variantNames o2) := hperm.map _
  exact decide_eq_decide.mpr hp.mem_iff

/-- C16 at the scenario of the specification: listing the variants as `Exec`,
`Exit` or as `Exit`, `Exec` gives the events `[Exec, Exit]`. -/
theorem variant_order_independence_witness :
    (GetEvents swappedHeap scenarioFile (Caches.empty 5 1)).1 = .ok [1, 2] ∧
    (GetEvents scenarioHeap scenarioFile (Caches.empty 5 1)).1 =
      (GetEvents swappedHeap scenarioFile (Caches.empty 5 1)).1 :=
  ⟨by decide,
    variant_order_independence scenarioHeap swappedHeap scenarioFile 0
      ⟨"event", [Field.ofMessage "GetEventsResponse_Exec" 1,
        Field.ofMessage "GetEventsResponse_Exit" 2]⟩
      ⟨"event", [Field.ofMessage "GetEventsResponse_Exit" 2,
        Field.ofMessage "GetEventsResponse_Exec" 1]⟩
      (by decide)
      ⟨[], [1, 2, 3, 4], rfl, by decide, by decide⟩
      ⟨[], [1, 2, 3, 4], rfl, by decide, by decide⟩
      ⟨[], [], rfl, by decide, by decide⟩
      ⟨[], [], rfl, by decide, by decide⟩
      (List.Perm.swap _ _ _)⟩

/-! ## Fields membership and the shared seen map -/

/-- When the messages reachable from a root have pairwise different Go type
names, the walk from the root finds the type name of every message reachable
from it in one or more hops. -/
theorem walk_complete {n k : Nat} {h : Heap n k} {e : Fin n}
    (hinj : ∀ a b, ReachPlus h e a → ReachPlus h e b →
      (h.msg a).goName = (h.msg b).goName → a = b) :
    ∀ r, ReachPlus h e r → (h.msg r).goName ∈ typeNames h (getFieldsForMessage h e) := by
  intro r hr
  induction hr with
  | single hb =>
    obtain ⟨field, hf, hm⟩ := hb
    exact direct_typeNames hf hm
  | tail hab hbc ih =>
    obtain ⟨f0, hf0, r0, hr0, hn0⟩ := (mem_typeNames h).mp ih
    obtain ⟨r1, hr1, hreach, hcl⟩ := recorded_reach hf0
    rw [hr0] at hr1
    obtain rfl := Option.some.inj hr1
    obtain rfl := hinj r0 _ hreach hab hn0
    obtain ⟨field, hf, hm⟩ := hbc
    exact hcl field hf _ hm

/-- The type names found by the walk from a root are Go type names of messages
reachable from the root in one or more hops. -/
theorem walk_sound {n k : Nat} {h : Heap n k} {e : Fin n} {s : String}
    (hs : s ∈ typeNames h (getFieldsForMessage h e)) :
    ∃ r, ReachPlus h e r ∧ (h.msg r).goName = s := by
  obtain ⟨f0, hf0, r0, hr0, hn0⟩ := (mem_typeNames h).mp hs
  obtain ⟨r1, hr1, hreach, _⟩ := recorded_reach hf0
  rw [hr0] at hr1
  obtain rfl := Option.some.inj hr1
  exact ⟨r0, hreach, hn0⟩

/-- C17, as stated, fails: in `collideFile` the event `Exec` reaches the
imported `Pod` (message 5) through the imported `Process`, and the declared
`Pod` (message 4) has that Go type name; but the walk skips the imported
`Process`, whose type name it has already seen, and `GetFields` returns only
the declared `Process`. -/
theorem fields_membership_counterexample :
    (GetEvents collideHeap collideFile (Caches.empty 6 0)).1 = .ok [1] ∧
    (GetFields collideHeap collideFile (Caches.empty 6 0)).1 = .ok [2] ∧
    (4 : Fin 6) ∈ collideFile.messages ∧
    ReachPlus collideHeap 1 5 ∧
    (collideHeap.msg 4).descName = (collideHeap.msg 5).goName ∧
    (4 : Fin 6) ∉ [(2 : Fin 6)] :=
  ⟨by decide, by decide, by decide,
    Relation.TransGen.tail
      (Relation.TransGen.single (by decide : Refs collideHeap 1 3))
      (by decide : Refs collideHeap 3 5),
    by decide, by decide⟩

/-- C17, amended: when `GetEvents(f)` succeeds from empty caches, so does
`GetFields(f)`, and a message is in its result if and only if it is in
`f.Messages` and its declared name is among the type names of the fields that
`getFieldsForMessage` returns for some event; each such name is the Go type
name of a message reachable from that event in one or more hops; and when the
messages reachable from each event have pairwise different Go type names, a
message is in the result if and only if it is in `f.Messages` and its declared
name equals the Go type name of some message reachable from some event by one
or more message-typed field hops. -/
theorem fields_membership {n k : Nat} (h : Heap n k) (f : File n k) (evs : List (Fin n))
    (hev : (GetEvents h f (Caches.empty n k)).1 = .ok evs) :
    ∃ flds, (GetFields h f (Caches.empty n k)).1 = .ok flds ∧
      (∀ m, m ∈ flds ↔ m ∈ f.messages ∧
        ∃ e ∈ evs, (h.msg m).descName ∈ typeNames h (getFieldsForMessage h e)) ∧
      (∀ m ∈ flds, m ∈ f.messages ∧
        ∃ e ∈ evs, ∃ r, ReachPlus h e r ∧ (h.msg m).descName = (h.msg r).goName) ∧
      ((∀ e ∈ evs, ∀ a b, ReachPlus h e a → ReachPlus h e b →
          (h.msg a).goName = (h.msg b).goName → a = b) →
        ∀ m, m ∈ flds ↔ m ∈ f.messages ∧
          ∃ e ∈ evs, ∃ r, ReachPlus h e r ∧ (h.msg m).descName = (h.msg r).goName) := by
  refine ⟨_, by rw [GetFields_of_events (c := Caches.empty n k) rfl rfl hev], ?_, ?_, ?_⟩
  · intro m
    rw [mem_messagesNamed, mem_validFields]
  · intro m hm
    obtain ⟨hmf, hmn⟩ := mem_messagesNamed.mp hm
    obtain ⟨e, he, hs⟩ := mem_validFields.mp hmn
    obtain ⟨r, hr, hn⟩ := walk_sound hs
    exact ⟨hmf, e, he, r, hr, hn.symm⟩
  · intro hinj m
    rw [mem_messagesNamed, mem_validFields]
    constructor
    · rintro ⟨hmf, e, he, hs⟩
      obtain ⟨r, hr, hn⟩ := walk_sound hs
      exact ⟨hmf, e, he, r, hr, hn.symm⟩
    · rintro ⟨hmf, e, he, r, hr, hn⟩
      refine ⟨hmf, e, he, ?_⟩
      rw [hn]
      exact walk_complete (hinj e he) r hr

/-- C17, amended, at the scenario of the specification: `Pod` is declared and
reachable from `Exec` through `Process`, and it is in Fields. -/
theorem fields_membership_witness :
    ∃ flds, (GetFields scenarioHeap scenarioFile (Caches.empty 5 1)).1 = .ok flds ∧
      (4 : Fin 5) ∈ flds := by
  obtain ⟨flds, h1, _, _, h4⟩ :=
    fields_membership scenarioHeap scenarioFile [1, 2] (by decide)
  refine ⟨flds, h1, ?_⟩
  refine (h4 (fun _ _ a b _ _ hab =>
    (by decide : ∀ a b : Fin 5,
      (scenarioHeap.msg a).goName = (scenarioHeap.msg b).goName → a = b) a b hab) 4).mpr
    ⟨by decide, 1, by decide, 4, ?_, by decide⟩
  exact Relation.TransGen.tail
    (Relation.TransGen.single (by decide : Refs scenarioHeap 1 3))
    (by decide : Refs scenarioHeap 3 4)

/-- The shared walk over a list of roots that starts with an event. -/
theorem sharedWalk_cons {n k : Nat} (h : Heap n k) (event : Fin n) (rest : List (Fin n))
    (seen : List String) :
    ∃ fields seen1, __getFieldsForMessage h (n + 1) event seen = some (fields, seen1) ∧
      sharedWalk h (event :: rest) seen =
        (fields ++ (sharedWalk h rest seen1).1, (sharedWalk h rest seen1).2) := by
  obtain ⟨⟨fields, seen1⟩, e⟩ := getFieldsForMessage_fuel h (n + 1) event seen
    (Nat.lt_succ_of_le (unseen_card_le h seen))
  refine ⟨fields, seen1, e, ?_⟩
  rw [sharedWalk, e]

/-- What holds of the shared walk over the roots `roots`, all of them events,
that starts with a map satisfying the invariant. -/
theorem sharedWalk_post {n k : Nat} (h : Heap n k) (evs : List (Fin n)) :
    ∀ (roots : List (Fin n)) (seen : List String), (∀ e ∈ roots, e ∈ evs) →
      SharedInv h evs seen →
        seen ⊆ (sharedWalk h roots seen).2 ∧
        SharedInv h evs (sharedWalk h roots seen).2 ∧
        (∀ e ∈ roots, ∀ field ∈ (h.msg e).fields, ∀ r, field.message = some r →
          (h.msg r).goName ∈ (sharedWalk h roots seen).2) ∧
        (∀ s ∈ (sharedWalk h roots seen).2,
          s ∈ seen ∨ s ∈ typeNames h (sharedWalk h roots seen).1) ∧
        (∀ s ∈ typeNames h (sharedWalk h roots seen).1, s ∈ (sharedWalk h roots seen).2) := by
  intro roots
  induction roots with
  | nil =>
    intro seen _ hinv
    refine ⟨fun _ hx => hx, hinv, fun e he => absurd he (List.not_mem_nil _),
      fun s hs => Or.inl hs, fun s hs => ?_⟩
    exact absurd hs (List.not_mem_nil _)
  | cons event rest ih =>
    intro seen hroots hinv
    obtain ⟨fields, seen1, e1, e2⟩ := sharedWalk_cons h event rest seen
    have p := getFieldsForMessage_post h _ _ _ _ e1
    have m1 : seen ⊆ seen1 := p.mono
    have hev : event ∈ evs := hroots event (List.mem_cons_self _ _)
    have hinv1 : SharedInv h evs seen1 := by
      intro s hs
      rcases p.fresh s hs with h0 | h0
      · obtain ⟨x, hx, hre, hcl⟩ := hinv s h0
        exact ⟨x, hx, hre, fun field hf r hr => m1 (hcl field hf r hr)⟩
      · obtain ⟨f0, hf0, r0, hr0, hn0⟩ := (mem_typeNames h).mp h0
        obtain ⟨r1, hr1, _, _, ⟨f1, hf1, r2, hm2, hreach⟩, hcl⟩ := p.recorded f0 hf0
        rw [hr0] at hr1
        obtain rfl := Option.some.inj hr1
        exact ⟨r0, hn0, ⟨event, hev, Relation.TransGen.head' ⟨f1, hf1, hm2⟩ hreach⟩, hcl⟩
    obtain ⟨q1, q2, q3, q4, q5⟩ :=
      ih seen1 (fun e he => hroots e (List.mem_cons_of_mem _ he)) hinv1
    have hnames1 : ∀ s ∈ typeNames h fields, s ∈ seen1 := by
      intro s hs
      obtain ⟨f0, hf0, r0, hr0, hn0⟩ := (mem_typeNames h).mp hs
      obtain ⟨r1, hr1, _, h2, _, _⟩ := p.recorded f0 hf0
      rw [hr0] at hr1
      obtain rfl := Option.some.inj hr1
      rw [← hn0]
      exact h2
    rw [e2]
    refine ⟨fun s hs => q1 (m1 hs), q2, ?_, ?_, ?_⟩
    · intro e he field hf r hr
      rcases List.mem_cons.mp he with rfl | he
      · exact q1 (p.direct field hf r hr)
      · exact q3 e he field hf r hr
    · intro s hs
      show s ∈ seen ∨ s ∈ typeNames h (fields ++ (sharedWalk h rest seen1).1)
      rw [typeNames_append]
      rcases q4 s hs with h0 | h0
      · rcases p.fresh s h0 with h1 | h1
        · exact Or.inl h1
        · exact Or.inr (List.mem_append_left _ h1)
      · exact Or.inr (List.mem_append_right _ h0)
    · intro s hs
      have hs1 : s ∈ typeNames h (fields ++ (sharedWalk h rest seen1).1) := hs
      rw [typeNames_append] at hs1
      rcases List.mem_append.mp hs1 with h0 | h0
      · exact q1 (hnames1 s h0)
      · exact q5 s h0

/-- When the messages reachable from the events have pairwise different Go
type names, the shared walk finds exactly the Go type names of the messages
reachable from some event in one or more hops. -/
theorem mem_validFieldsShared {n k : Nat} {h : Heap n k} {evs : List (Fin n)}
    (hinj : ∀ e ∈ evs, ∀ e1 ∈ evs, ∀ a b, ReachPlus h e a → ReachPlus h e1 b →
      (h.msg a).goName = (h.msg b).goName → a = b) (s : String) :
    s ∈ validFieldsShared h evs ↔ ∃ e ∈ evs, ∃ r, ReachPlus h e r ∧ (h.msg r).goName = s := by
  obtain ⟨_, q2, q3, q4, q5⟩ := sharedWalk_post h evs evs [] (fun _ he => he)
    (fun s hs => absurd hs (List.not_mem_nil _))
  constructor
  · intro hs
    obtain ⟨x, hx, ⟨e, he, hre⟩, _⟩ := q2 s (q5 s hs)
    exact ⟨e, he, x, hre, hx⟩
  · rintro ⟨e, he, r, hr, rfl⟩
    have hmem : (h.msg r).goName ∈ (sharedWalk h evs []).2 := by
      induction hr with
      | single hb =>
        obtain ⟨field, hf, hm⟩ := hb
        exact q3 e he field hf _ hm
      | tail hab hbc ih =>
        obtain ⟨x, hx, ⟨e1, he1, hre⟩, hcl⟩ := q2 _ ih
        obtain rfl := hinj e1 he1 e he x _ hre hab hx
        obtain ⟨field, hf, hm⟩ := hbc
        exact hcl field hf _ hm
    rcases q4 _ hmem with h0 | h0
    · exact absurd h0 (List.not_mem_nil _)
    · exact h0

/-- C20, as stated, fails: in `sharedFile` the per-root walks find the type
names `Process` and `Pod`, and `GetFields` returns the declared `Process` and
`Pod`; with one shared map the walk from `Exit` skips the imported `Process`,
whose type name the walk from `Exec` has already put into the map, so `Pod` is
not found and the Fields sequence is the declared `Process` alone. -/
theorem shared_seen_counterexample :
    (GetEvents sharedHeap sharedFile (Caches.empty 7 0)).1 = .ok [1, 2] ∧
    (GetFields sharedHeap sharedFile (Caches.empty 7 0)).1 = .ok [3, 5] ∧
    "Pod" ∈ validFields sharedHeap [1, 2] ∧
    "Pod" ∉ validFieldsShared sharedHeap [1, 2] ∧
    messagesNamed sharedHeap sharedFile (validFields sharedHeap [1, 2]) = [3, 5] ∧
    messagesNamed sharedHeap sharedFile (validFieldsShared sharedHeap [1, 2]) = [3] := by
  decide

/-- C20, amended: when `GetEvents(f)` succeeds from empty caches and the
messages reachable from its events have pairwise different Go type names, the
per-root walks of `GetFields` and the variant with one `seen` map shared across
all event roots find the same set of type names, and `GetFields(f)` returns
the Fields sequence that the shared variant gives. -/
theorem shared_seen_equivalent {n k : Nat} (h : Heap n k) (f : File n k) (evs : List (Fin n))
    (hev : (GetEvents h f (Caches.empty n k)).1 = .ok evs)
    (hinj : ∀ e ∈ evs, ∀ e1 ∈ evs, ∀ a b, ReachPlus h e a → ReachPlus h e1 b →
      (h.msg a).goName = (h.msg b).goName → a = b) :
    (∀ s, s ∈ validFields h evs ↔ s ∈ validFieldsShared h evs) ∧
    messagesNamed h f (validFields h evs) = messagesNamed h f (validFieldsShared h evs) ∧
    (GetFields h f (Caches.empty n k)).1 =
      .ok (messagesNamed h f (validFieldsShared h evs)) := by
  have hset : ∀ s, s ∈ validFields h evs ↔ s ∈ validFieldsShared h evs := by
    intro s
    rw [mem_validFieldsShared hinj, mem_validFields]
    constructor
    · rintro ⟨e, he, hs⟩
      obtain ⟨r, hr, hn⟩ := walk_sound hs
      exact ⟨e, he, r, hr, hn⟩
    · rintro ⟨e, he, r, hr, rfl⟩
      exact ⟨e, he, walk_complete (hinj e he e he) r hr⟩
  have hseq : messagesNamed h f (validFields h evs) =
      messagesNamed h f (validFieldsShared h evs) := by
    unfold messagesNamed
    apply List.filter_congr
    intro x _
    exact decide_eq_decide.mpr (hset _)
  refine ⟨hset, hseq, ?_⟩
  rw [GetFields_of_events (c := Caches.empty n k) rfl rfl hev, hseq]

/-- C20, amended, at the diamond: `Exec` and `Exit` both reference `Process`,
and the shared variant gives the Fields sequence `[Process]` of `GetFields`. -/
theorem shared_seen_equivalent_witness :
    messagesNamed diamondHeap diamondFile (validFieldsShared diamondHeap [1, 2]) = [3] ∧
    (GetFields diamondHeap diamondFile (Caches.empty 4 0)).1 =
      .ok (messagesNamed diamondHeap diamondFile (validFieldsShared diamondHeap [1, 2])) :=
  ⟨by decide,
    (shared_seen_equivalent diamondHeap diamondFile [1, 2] (by decide)
      (fun _ _ _ _ a b _ _ hab =>
        (by decide : ∀ a b : Fin 4,
          (diamondHeap.msg a).goName = (diamondHeap.msg b).goName → a = b) a b hab)).2.2⟩

/-! ## Duplicates -/

/-- C4, as stated, fails: in `importDiamondFile` the declared names are
pairwise distinct and the two events `Exec` and `Exit` both reference the field
type `Timestamp`, but `Timestamp` is imported, `GetFields` returns the empty
list, and `Timestamp` appears in the Fields closure not once but never. -/
theorem no_duplicates_counterexample :
    (importDiamondFile.messages.map (fun m => (importDiamondHeap.msg m).descName)).Nodup ∧
    (GetEvents importDiamondHeap importDiamondFile (Caches.empty 4 0)).1 = .ok [1, 2] ∧
    Field.ofMessage "Exec_Time" 3 ∈ (importDiamondHeap.msg 1).fields ∧
    Field.ofMessage "Exit_Time" 3 ∈ (importDiamondHeap.msg 2).fields ∧
    (Field.ofMessage "Exec_Time" 3 : Field 4 0).message = some 3 ∧
    (Field.ofMessage "Exit_Time" 3 : Field 4 0).message = some 3 ∧
    (GetFields importDiamondHeap importDiamondFile (Caches.empty 4 0)).1 = .ok [] ∧
    ([] : List (Fin 4)).count 3 = 0 := by
  decide

/-- C4, amended: when the declared messages of `f` have pairwise distinct
names, the sequences returned from empty caches by `GetEvents(f)` and
`GetFields(f)` contain no message twice; a message occurs in Fields at most
once, exactly once if it is a member, and not at all if it is not declared in
`f.Messages`; a type declared in `f.Messages` under a declared name equal to
its Go type name occurs in Fields exactly once when a field of an event
references it, however many events do, and when it is reachable, also through
a cycle, from an event whose reachable messages have pairwise different Go
type names. When the declared enums have pairwise distinct names, the sequence
returned by `GetEnums(f)` contains no enum twice. -/
theorem no_duplicates_declared {n k : Nat} (h : Heap n k) (f : File n k) :
    ((f.messages.map (fun m => (h.msg m).descName)).Nodup →
      (∀ evs, (GetEvents h f (Caches.empty n k)).1 = .ok evs →
        evs.Nodup ∧ (evs.map (fun m => (h.msg m).descName)).Nodup) ∧
      (∀ flds, (GetFields h f (Caches.empty n k)).1 = .ok flds →
        flds.Nodup ∧ (flds.map (fun m => (h.msg m).descName)).Nodup ∧
          (∀ m, flds.count m ≤ 1) ∧ (∀ m ∈ flds, flds.count m = 1) ∧
          (∀ m, m ∉ f.messages → flds.count m = 0)) ∧
      (∀ evs flds, (GetEvents h f (Caches.empty n k)).1 = .ok evs →
        (GetFields h f (Caches.empty n k)).1 = .ok flds →
        ∀ e ∈ evs, ∀ field ∈ (h.msg e).fields, ∀ r, field.message = some r →
          r ∈ f.messages → (h.msg r).descName = (h.msg r).goName →
            flds.count r = 1) ∧
      (∀ evs flds, (GetEvents h f (Caches.empty n k)).1 = .ok evs →
        (GetFields h f (Caches.empty n k)).1 = .ok flds →
        ∀ e ∈ evs,
          (∀ a b, ReachPlus h e a → ReachPlus h e b →
            (h.msg a).goName = (h.msg b).goName → a = b) →
          ∀ r, ReachPlus h e r → r ∈ f.messages →
            (h.msg r).descName = (h.msg r).goName → flds.count r = 1)) ∧
    ((f.enums.map (fun e => (h.enum e).descName)).Nodup →
      ∀ ens, (GetEnums h f (Caches.empty n k)).1 = .ok ens →
        ens.Nodup ∧ (ens.map (fun e => (h.enum e).descName)).Nodup) := by
  have hfields : (f.messages.map (fun m => (h.msg m).descName)).Nodup →
      ∀ flds, (GetFields h f (Caches.empty n k)).1 = .ok flds →
        flds.Nodup ∧ (flds.map (fun m => (h.msg m).descName)).Nodup ∧
          (∀ m, flds.count m ≤ 1) ∧ (∀ m ∈ flds, flds.count m = 1) ∧
          (∀ m, m ∉ f.messages → flds.count m = 0) := by
    intro hnd flds hfl
    obtain ⟨evs, _, rfl⟩ := GetFields_ok_inv (c := Caches.empty n k) rfl rfl hfl
    have hs : (messagesNamed h f (validFields h evs)).Sublist f.messages :=
      List.filter_sublist _
    have hn := (List.Nodup.of_map _ hnd).sublist hs
    exact ⟨hn, hnd.sublist (hs.map _), fun m => List.nodup_iff_count_le_one.mp hn m,
      fun m hm => List.count_eq_one_of_mem hn hm,
      fun m hm => List.count_eq_zero_of_not_mem (fun hin => hm (hs.subset hin))⟩
  have hmember : (f.messages.map (fun m => (h.msg m).descName)).Nodup →
      ∀ evs flds, (GetEvents h f (Caches.empty n k)).1 = .ok evs →
        (GetFields h f (Caches.empty n k)).1 = .ok flds →
        ∀ r, (h.msg r).goName ∈ validFields h evs → r ∈ f.messages →
          (h.msg r).descName = (h.msg r).goName → flds.count r = 1 := by
    intro hnd evs flds hev hfl r hr hdecl hname
    refine (hfields hnd flds hfl).2.2.2.1 r ?_
    obtain ⟨evs1, hev1, rfl⟩ := GetFields_ok_inv (c := Caches.empty n k) rfl rfl hfl
    rw [hev] at hev1
    obtain rfl := Result.ok.inj hev1
    exact mem_messagesNamed.mpr ⟨hdecl, by rw [hname]; exact hr⟩
  refine ⟨fun hnd => ⟨?_, hfields hnd, ?_, ?_⟩, fun hnd => ?_⟩
  · intro evs hev
    obtain ⟨m, o, _, _, rfl, _⟩ := GetEvents_ok_inv (c := Caches.empty n k) rfl hev
    have hs : (messagesNamed h f (variantNames o)).Sublist f.messages :=
      List.filter_sublist _
    exact ⟨(List.Nodup.of_map _ hnd).sublist hs, hnd.sublist (hs.map _)⟩
  · intro evs flds hev hfl e he field hf r hr hdecl hname
    exact hmember hnd evs flds hev hfl r
      (mem_validFields.mpr ⟨e, he, direct_typeNames hf hr⟩) hdecl hname
  · intro evs flds hev hfl e he hinj r hr hdecl hname
    exact hmember hnd evs flds hev hfl r
      (mem_validFields.mpr ⟨e, he, walk_complete hinj r hr⟩) hdecl hname
  · intro ens hen
    obtain ⟨evs, flds, _, _, rfl⟩ := GetEnums_ok_inv (c := Caches.empty n k) rfl rfl rfl hen
    have hs : (enumsNamed h f (validEnumNames h (evs ++ flds))).Sublist f.enums :=
      List.filter_sublist _
    exact ⟨(List.Nodup.of_map _ hnd).sublist hs, hnd.sublist (hs.map _)⟩

/-- C4, amended, at the diamond and at the cycle: `Exec` and `Exit` both
reference the declared `Process`, which occurs exactly once in Fields; and in
the cycle `A → B → A` the event `A`, reachable from itself through `B`, occurs
exactly once in Fields. -/
theorem no_duplicates_declared_witness :
    (GetEvents diamondHeap diamondFile (Caches.empty 4 0)).1 = .ok [1, 2] ∧
    (GetFields diamondHeap diamondFile (Caches.empty 4 0)).1 = .ok [3] ∧
    [(3 : Fin 4)].count 3 = 1 ∧
    (GetFields cycleHeap cycleFile (Caches.empty 3 0)).1 = .ok [1, 2] ∧
    [(1 : Fin 3), 2].count 1 = 1 ∧
    ([] : List (Fin 0)).Nodup :=
  ⟨by decide, by decide,
    ((no_duplicates_declared diamondHeap diamondFile).1 (by decide)).2.2.1 [1, 2] [3]
      (by decide) (by decide) 2 (by decide) (Field.ofMessage "Exit_Process" 3) (by decide)
      3 rfl (by decide) (by decide),
    by decide,
    ((no_duplicates_declared cycleHeap cycleFile).1 (by decide)).2.2.2 [1] [1, 2]
      (by decide) (by decide) 1 (by decide)
      (fun a b _ _ hab =>
        (by decide : ∀ a b : Fin 3,
          (cycleHeap.msg a).goName = (cycleHeap.msg b).goName → a = b) a b hab)
      1 (Relation.TransGen.tail
          (Relation.TransGen.single (by decide : Refs cycleHeap 1 2))
          (by decide : Refs cycleHeap 2 1))
      (by decide) (by decide),
    ((no_duplicates_declared diamondHeap diamondFile).2 (by decide) [] (by decide)).1⟩

end Tetragon
